import Mathlib

/-!
# Verification of the `sec_queries` fact-indexing and rule-based extraction engine

Shallow embedding of the core of the `edgar_extractor` package:

* `config_schema.py` — rule configuration data model and `year_matches_range`;
* `xbrl_index.py`    — context/fact indexing (`XBRLIndex._index_contexts`,
  `XBRLIndex._index_facts`);
* `metrics.py`       — matching predicates (`_dims_match`, `_unit_match`,
  `_period_type_match`, `_is_consolidated`), the `Accumulator` aggregation
  helper, and the single-pass `extract_all` engine;
* `utils.py`         — the deep-merge `_merge` of configuration dictionaries.

Python dictionaries are modelled as insertion-ordered association lists
(`List (String × β)`); dictionary lookup is first-match lookup, which agrees
with the dictionary semantics because Python dict keys are unique.  Python
floats are modelled by `ℚ` (every numeric value appearing in the verified
properties is exactly representable, and `+`, `/`, comparison on such values
agree between the two).  Python string truthiness (`if not s`) is modelled by
comparison with the empty string, and `None` by `Option`.
-/

namespace SecQueries

/-! ## Python string primitives

The Python string operations used by the source (`in`, `split`, `int`,
slicing, `lower`, `startswith`, `<`) are modelled by structural recursion
over the character list of a `String`, mirroring Python's code-point
semantics. -/

/-- `c in s` for a character. -/
def pyContainsChar (s : String) (c : Char) : Bool := s.data.contains c

/-- `s[:n]`. -/
def pyTake (s : String) (n : Nat) : String := ⟨s.data.take n⟩

/-- `s.lower()`. -/
def pyLower (s : String) : String := ⟨s.data.map Char.toLower⟩

/-- `s.startswith(pre)`. -/
def pyStartsWith (s pre : String) : Bool := pre.data.isPrefixOf s.data

def pySplitAux (c : Char) : List Char → List Char → List String
  | [], acc => [⟨acc.reverse⟩]
  | x :: xs, acc =>
    if x = c then ⟨acc.reverse⟩ :: pySplitAux c xs []
    else pySplitAux c xs (x :: acc)

/-- `s.split(c)` for a one-character separator. -/
def pySplit (s : String) (c : Char) : List String := pySplitAux c s.data []

/-- The chars after the first occurrence of `c`: `s.split(c, 1)[1]`.  Total
here; when `c` does not occur the source's subscript raises instead (every
use is guarded so that `c` occurs). -/
def splitOnceAfter (c : Char) : List Char → List Char
  | [] => []
  | x :: xs => if x = c then xs else splitOnceAfter c xs

/-- The numeric value of a digit character. -/
def digitVal (c : Char) : Option Nat :=
  if '0' ≤ c ∧ c ≤ '9' then some (c.toNat - '0'.toNat) else none

def digitsToNatAux : List Char → Nat → Option Nat
  | [], acc => some acc
  | c :: cs, acc =>
    match digitVal c with
    | some d => digitsToNatAux cs (acc * 10 + d)
    | none => none

/-- Digit-string to number; `none` when empty or containing a non-digit. -/
def digitsToNat : List Char → Option Nat
  | [] => none
  | c :: cs => digitsToNatAux (c :: cs) 0

/-- Python `int(s)` on the shapes occurring in year ranges: an optional `-`
sign followed by digits.  `none` models the `ValueError` raised on anything
else. -/
def pyInt (s : String) : Option Int :=
  match s.data with
  | '-' :: rest => (digitsToNat rest).map (fun n => -(n : Int))
  | l => (digitsToNat l).map (fun n => (n : Int))

/-- Python's `<` on strings: lexicographic comparison by code point. -/
def charListLt : List Char → List Char → Bool
  | [], [] => false
  | [], _ :: _ => true
  | _ :: _, [] => false
  | a :: as, b :: bs =>
    if a < b then true
    else if b < a then false
    else charListLt as bs

def pyStrLt (s t : String) : Bool := charListLt s.data t.data

/-! ## Data model (`xbrl_index.Fact`, `config_schema`) -/

/-- A fact's required-dimension expectation: the Python config stores either a
single string or a list of acceptable strings (`metrics.py` line 42). -/
inductive DimExpected where
  | single (v : String)
  | listOf (vs : List String)
deriving DecidableEq, Repr

/-- `exp_list = expected if isinstance(expected, list) else [expected]`. -/
def expList : DimExpected → List String
  | .single v => [v]
  | .listOf vs => vs

/-- `xbrl_index.Fact`: one tagged data point.  `dims` is the context's
dimensional mapping (a Python dict, modelled as an association list in
insertion order, keys unique). -/
structure Fact where
  concept : String
  value : ℚ
  unit : String
  decimals : Option String
  period_key : String × String
  dims : List (String × String)
  context_id : String
deriving DecidableEq, Repr

/-- `config_schema.MetricStrategy`. -/
inductive MetricStrategy where
  | PICK_FIRST
  | SUM
  | LATEST_IN_YEAR
  | MAX
  | MIN
  | AVG
deriving DecidableEq, Repr

/-- `config_schema.MetricRule`. -/
structure MetricRule where
  name : String
  aliases : List String
  strategy : MetricStrategy := .PICK_FIRST
  required_dims : Option (List (String × DimExpected)) := none
  units : Option (List String) := none
  period_type : Option String := none
  category : Option String := none
  filter_for_consolidated : Bool := false
  years : Option String := none
deriving DecidableEq, Repr

/-- `config_schema.SegmentRule`. -/
structure SegmentRule where
  name : String
  concept : String
  required_dims : Option (List (String × DimExpected)) := none
  units : Option (List String) := none
  period_type : Option String := none
  strategy : MetricStrategy := .PICK_FIRST
  filter_for_consolidated : Bool := false
  years : Option String := none
deriving DecidableEq, Repr

/-- `config_schema.CompanyConfig`. -/
structure CompanyConfig where
  axis_aliases : List (String × List String) := []
  consolidated_members : List String := []
  metrics : List MetricRule := []
  segments : List SegmentRule := []
deriving DecidableEq, Repr

/-- `config_schema.year_matches_range`.  `int(...)` on the pieces of a
well-formed range string is modelled by `(pyInt ...).getD 0`; on a string
that is not a valid integer the source raises instead (such ranges never occur
in well-formed configurations).  A range with more than one dash makes the
two-element unpacking raise in the source; modelled as `false`. -/
def year_matches_range (year : Int) (year_range : Option String) : Bool :=
  match year_range with
  | none => true
  | some s =>
    if s = "" then true      -- `if not year_range` is also taken for ""
    else if ¬ pyContainsChar s '-' then
      year == (pyInt s).getD 0
    else
      match pySplit s '-' with
      | [a, b] => decide ((pyInt a).getD 0 ≤ year) && decide (year ≤ (pyInt b).getD 0)
      | _ => false

/-! ## Matching predicates (`metrics.py`) -/

/-- `metrics._year_of_fact`: `end or start`, then the first four characters. -/
def _year_of_fact (f : Fact) : String :=
  let date := if f.period_key.2 ≠ "" then f.period_key.2 else f.period_key.1
  if date = "" then "" else pyTake date 4

/-- `metrics._period_type_of_fact`: `"instant" if not start and end else "duration"`. -/
def _period_type_of_fact (f : Fact) : String :=
  if f.period_key.1 = "" ∧ f.period_key.2 ≠ "" then "instant" else "duration"

/-- The inner alias scan of `_dims_match` (lines 53–62): the first alias that
is present in the fact's dims decides; its value is returned. -/
def firstAliasValue (f : Fact) : List String → Option String
  | [] => none
  | a :: rest =>
    match f.dims.lookup a with
    | some v => some v
    | none => firstAliasValue f rest

/-- The `for axis, expected in required.items()` loop of `_dims_match`
(lines 41–68), with its early `return False` exits. -/
def dimsMatchLoop (f : Fact) (axis_aliases : List (String × List String)) :
    List (String × DimExpected) → Bool
  | [] => true
  | (axis, expected) :: rest =>
    let exp_list := expList expected
    match f.dims.lookup axis with
    | some v =>
      -- axis exists directly in fact dims: its value must be acceptable
      if v ∈ exp_list then dimsMatchLoop f axis_aliases rest else false
    | none =>
      match firstAliasValue f ((axis_aliases.lookup axis).getD []) with
      | some v => if v ∈ exp_list then dimsMatchLoop f axis_aliases rest else false
      | none => false

/-- `metrics._dims_match`.  The `axis_aliases=None` default is normalised to
the empty dict by the source before use, so the parameter is total here. -/
def _dims_match (f : Fact) (required : Option (List (String × DimExpected)))
    (axis_aliases : List (String × List String)) : Bool :=
  match required with
  | none => true                      -- no constraint - accept any dimensions
  | some [] => f.dims.isEmpty         -- only pure facts (no dimensions allowed)
  | some (p :: rest) => dimsMatchLoop f axis_aliases (p :: rest)

/-- `metrics._unit_match`: `if not units: return True` accepts `None` and `[]`. -/
def _unit_match (f : Fact) (units : Option (List String)) : Bool :=
  match units with
  | none => true
  | some us => us.isEmpty || f.unit ∈ us

/-- `metrics._period_type_match`: `if not ptype: return True` accepts `None`
and the empty string. -/
def _period_type_match (f : Fact) (ptype : Option String) : Bool :=
  match ptype with
  | none => true
  | some p => if p = "" then true else _period_type_of_fact f == p

/-- `metrics._is_consolidated`. -/
def _is_consolidated (f : Fact) (consolidated_members : List String) : Bool :=
  if f.dims.isEmpty then true
  else consolidated_members.any (fun m => (f.dims.map Prod.snd).contains m)

/-! ## Aggregation helper (`metrics.Accumulator`) -/

/-- `metrics.Accumulator`. -/
structure Accumulator where
  count : Nat := 0
  total : ℚ := 0
  max_val : Option ℚ := none
  min_val : Option ℚ := none
  latest_value : Option ℚ := none
  latest_date : Option String := none
deriving DecidableEq, Repr

/-- `Accumulator.update`. -/
def Accumulator.update (a : Accumulator) (val : ℚ) (date : String) : Accumulator :=
  { count := a.count + 1
    total := a.total + val
    max_val := match a.max_val with
      | none => some val
      | some m => if val > m then some val else some m
    min_val := match a.min_val with
      | none => some val
      | some m => if val < m then some val else some m
    latest_value :=
      match a.latest_date with
      | none => some val
      | some d => if pyStrLt d date then some val else a.latest_value
    latest_date :=
      match a.latest_date with
      | none => some date
      | some d => if pyStrLt d date then some date else a.latest_date }

/-- `Accumulator.result`. -/
def Accumulator.result (a : Accumulator) (strategy : MetricStrategy) : Option ℚ :=
  if a.count = 0 then none
  else match strategy with
    | .SUM => some a.total
    | .AVG => some (a.total / (a.count : ℚ))
    | .MAX => a.max_val
    | .MIN => a.min_val
    | .LATEST_IN_YEAR => a.latest_value
    | .PICK_FIRST => a.latest_value   -- handled before accumulation; fallback

/-! ## Generic association-list operations (Python `dict` semantics) -/

/-- `m[k] = v` on a Python dict: an existing key keeps its position and gets
the new value, a new key is appended. -/
def setKey {κ β : Type} [DecidableEq κ] : List (κ × β) → κ → β → List (κ × β)
  | [], k, v => [(k, v)]
  | (k', v') :: rest, k, v =>
    if k' = k then (k, v) :: rest else (k', v') :: setKey rest k v

/-- `m.get(k)` on a Python dict (keys are unique, first match). -/
def getKey? {κ β : Type} [DecidableEq κ] : List (κ × β) → κ → Option β
  | [], _ => none
  | (k', v) :: rest, k => if k' = k then some v else getKey? rest k

/-! ## Index construction (`xbrl_index.XBRLIndex`) -/

/-- The period child of a context element: each field is the stripped text of
the corresponding child element, `none` when that child is absent. -/
structure RawPeriod where
  startDate : Option String
  endDate : Option String
  instant : Option String
deriving DecidableEq, Repr

/-- A context element.  `explicitMembers` are the explicit-member-style
children of the context's `segment` child (the source filters
`seg.find_all(True)` by tag name containing "explicitmember"); each carries
the `dimension` attribute (`none` when absent) and the stripped member text.
A context with no `segment` child has an empty list. -/
structure RawContext where
  id : Option String
  period : Option RawPeriod
  explicitMembers : List (Option String × String)
deriving DecidableEq, Repr

/-- The value stored per context id by `_index_contexts`. -/
structure ContextData where
  period_key : String × String
  dims : List (String × String)
deriving DecidableEq, Repr

instance : Inhabited ContextData := ⟨⟨("", ""), []⟩⟩

/-- Python truthiness of an optional string: present and non-empty. -/
def truthy : Option String → Bool
  | none => false
  | some s => s ≠ ""

/-- The per-context body of `XBRLIndex._index_contexts` (lines 48–77): `none`
when the context has no (truthy) id and is skipped. -/
def indexOneContext (ctx : RawContext) : Option (String × ContextData) :=
  match ctx.id with
  | none => none
  | some cid =>
    if cid = "" then none       -- `if not cid: continue`
    else
      let start := ctx.period.bind RawPeriod.startDate
      let endD := ctx.period.bind RawPeriod.endDate
      let instant := ctx.period.bind RawPeriod.instant
      let pkey : String × String :=
        if truthy instant then ("", instant.getD "")
        else (start.getD "", endD.getD "")
      let dims := ctx.explicitMembers.foldl
        (fun d am =>
          match am.1 with
          | some axis => if axis ≠ "" ∧ am.2 ≠ "" then setKey d axis am.2 else d
          | none => d)
        []
      some (cid, { period_key := pkey, dims := dims })

/-- One step of an index-building fold: skip the element when the per-element
function yields nothing, otherwise insert/overwrite by key. -/
def foldStep {κ β γ : Type} [DecidableEq κ] (step : γ → Option (κ × β))
    (out : List (κ × β)) (c : γ) : List (κ × β) :=
  match step c with
  | none => out
  | some (k, v) => setKey out k v

/-- `XBRLIndex._index_contexts`. -/
def _index_contexts (ctxs : List RawContext) : List (String × ContextData) :=
  ctxs.foldl (foldStep indexOneContext) []

/-- A document element as seen by `_index_facts`.  The trimmed text content is
modelled by its parsed numeric value (`none` when the text is empty or not
parseable as a number — both cases are skipped identically by the source).
The two attribute spellings `contextRef`/`contextref` and `unitRef`/`unitref`
are collapsed into one field.  `scale` is the parsed scale attribute (`none`
when absent); the source's `scale != "0"` string test is modelled by the
integer being non-zero. -/
structure RawElem where
  tagName : String
  ns : Option String              -- the element's namespace prefix, `none` when absent
  contextRef : Option String
  numText : Option ℚ
  unitRef : Option String
  decimals : Option String
  scale : Option Int
deriving DecidableEq, Repr

/-- Tag names excluded as structural rather than facts (`_index_facts` lines 103–105). -/
def structuralNames : List String :=
  ["xbrl", "schemaref", "context", "entity", "identifier",
   "period", "startdate", "enddate", "instant", "segment",
   "explicitmember", "unit", "measure"]

/-- The uniqueness key `(concept, period key, sorted dims)`. -/
abbrev FactKey := String × (String × String) × List (String × String)

/-- `sorted(ctx["dims"].items())`: Python sorts the (key, value) pairs
lexicographically. -/
def sortedDims (dims : List (String × String)) : List (String × String) :=
  dims.insertionSort
    (fun a b => pyStrLt a.1 b.1 = true ∨ (a.1 = b.1 ∧ pyStrLt b.2 a.2 = false))

/-- The per-element body of `XBRLIndex._index_facts` (lines 95–152): `none`
when the element is skipped, otherwise the key and the constructed `Fact`. -/
def mkFactElem (contexts : List (String × ContextData)) (elem : RawElem) :
    Option (FactKey × Fact) :=
  if structuralNames.contains (pyLower elem.tagName)
      ∨ elem.ns = some "link" ∨ elem.ns = some "xbrldi" then none
  else
    match elem.ns with
    | none => none                -- no namespace prefix: skipped as structural
    | some p =>
      let concept_name := p ++ ":" ++ elem.tagName
      match elem.contextRef with
      | none => none              -- no contextRef attribute
      | some ctxid =>
        match elem.numText with
        | none => none            -- empty or non-numeric text
        | some v0 =>
          match getKey? contexts ctxid with
          | none => none          -- referenced context not indexed
          | some ctx =>
            let unit := elem.unitRef.getD ""
            let val :=
              match elem.scale with
              | some k => if k ≠ 0 then v0 * (10 : ℚ) ^ (k : ℤ) else v0
              | none => v0
            let key : FactKey := (concept_name, ctx.period_key, sortedDims ctx.dims)
            some (key,
              { concept := concept_name, value := val, unit := unit,
                decimals := elem.decimals, period_key := ctx.period_key,
                dims := ctx.dims, context_id := ctxid })

/-- `XBRLIndex._index_facts`: insertion into the facts dict, overwriting by
uniqueness key (last write wins, first-insertion position kept). -/
def _index_facts (contexts : List (String × ContextData)) (elems : List RawElem) :
    List (FactKey × Fact) :=
  elems.foldl (foldStep (mkFactElem contexts)) []

/-! ## The extraction engine (`metrics.extract_all`) -/

/-- A rule object together with its position in the configuration's rule list.
The position stands for Python object identity (`id(rule)`): within one
configuration distinct rule objects have distinct positions. -/
inductive RuleRef where
  | metricR (i : Nat) (r : MetricRule)
  | segmentR (i : Nat) (r : SegmentRule)
deriving DecidableEq, Repr

def RuleRef.years : RuleRef → Option String
  | .metricR _ r => r.years
  | .segmentR _ r => r.years

def RuleRef.strategy : RuleRef → MetricStrategy
  | .metricR _ r => r.strategy
  | .segmentR _ r => r.strategy

def RuleRef.ruleName : RuleRef → String
  | .metricR _ r => r.name
  | .segmentR _ r => r.name

/-- `aliases = [rule.concept] if isinstance(rule, SegmentRule) else rule.aliases`
(line 375). -/
def RuleRef.aliasesOf : RuleRef → List String
  | .metricR _ r => r.aliases
  | .segmentR _ r => [r.concept]

/-- `_build_concept_to_rules` read off for one concept: the rules mapped to
it, in insertion order (all metric rules first — once per occurrence of the
concept among the rule's aliases — then all segment rules with that concept). -/
def rulesFor (cfg : CompanyConfig) (c : String) : List RuleRef :=
  (cfg.metrics.enum.flatMap fun p =>
    (p.2.aliases.filter (fun a => a == c)).map fun _ => RuleRef.metricR p.1 p.2)
  ++ ((cfg.segments.enum.filter fun p => p.2.concept == c).map
      fun p => RuleRef.segmentR p.1 p.2)

/-- The dims/unit/period-type/consolidated predicates a fact must pass for a
rule (`extract_all` lines 305–318 for segment rules, 337–344 for metric rules;
both check the same conditions in the same order). -/
def rulePasses (cfg : CompanyConfig) (f : Fact) : RuleRef → Bool
  | .segmentR _ s =>
    _dims_match f s.required_dims cfg.axis_aliases
    && _unit_match f s.units
    && _period_type_match f s.period_type
    && (!s.filter_for_consolidated || _is_consolidated f cfg.consolidated_members)
  | .metricR _ m =>
    _dims_match f m.required_dims cfg.axis_aliases
    && _unit_match f m.units
    && _period_type_match f m.period_type
    && (!m.filter_for_consolidated || _is_consolidated f cfg.consolidated_members)

/-- `int(year)` (line 293); the year strings produced by `_year_of_fact` are
numeric in well-formed documents, where the source's `int` cannot raise. -/
def yearToInt (y : String) : Int := (pyInt y).getD 0

/-- Keys of the `candidate_facts` dict: `(year, id(rule))`. -/
abbrev CandKey := String × RuleRef

/-- The `candidate_facts` dict (insertion-ordered). -/
abbrev CandState := List (CandKey × List Fact)

/-- `candidate_facts[key].append(f)` on the defaultdict: appends to the
existing list in place, or creates the entry `key ↦ [f]`. -/
def appendCand : CandState → CandKey → Fact → CandState
  | [], key, f => [(key, [f])]
  | (k', cs) :: rest, key, f =>
    if k' = key then (k', cs ++ [f]) :: rest
    else (k', cs) :: appendCand rest key f

/-- `rule.aliases.index(c) if c in rule.aliases else float('inf')`
(lines 354–355), with `none` standing for infinity. -/
def aliasPriority (aliases : List String) (c : String) : Option Nat :=
  if c ∈ aliases then some (aliases.indexOf c) else none

/-- `new_priority < existing_priority` on priorities with infinity. -/
def priLt : Option Nat → Option Nat → Bool
  | some a, some b => a < b
  | some _, none => true
  | none, _ => false

/-- Processing of one (fact, rule) pair inside `extract_all`'s main loop
(lines 288–365): year-range check, predicate checks, then strategy-dependent
candidate collection (segment PICK_FIRST keeps the first match; metric
PICK_FIRST keeps the single highest-alias-priority match). -/
def processRule (cfg : CompanyConfig) (f : Fact) (year : String) (st : CandState)
    (rr : RuleRef) : CandState :=
  if ¬ year_matches_range (yearToInt year) rr.years then st
  else if ¬ rulePasses cfg f rr then st
  else
    let key : CandKey := (year, rr)
    match rr with
    | .segmentR _ s =>
      if s.strategy = .PICK_FIRST then
        if getKey? st key = none then appendCand st key f else st
      else appendCand st key f
    | .metricR _ m =>
      if m.strategy = .PICK_FIRST then
        match getKey? st key with
        | none => appendCand st key f
        | some [] => st    -- unreachable: lists stored in the dict are never empty
        | some (e :: _) =>
          if priLt (aliasPriority m.aliases f.concept) (aliasPriority m.aliases e.concept)
          then setKey st key [f]      -- REPLACE with the higher-priority fact
          else st
      else appendCand st key f

/-- Processing of one fact of `index.facts.values()` (lines 259–365).  A fact
whose concept maps to no rule contributes nothing (the fold over `[]` is a
no-op), and a fact with an empty derived year is skipped before rule matching. -/
def processFact (cfg : CompanyConfig) (st : CandState) (f : Fact) : CandState :=
  if _year_of_fact f = "" then st
  else (rulesFor cfg f.concept).foldl (processRule cfg f (_year_of_fact f)) st

/-- The PICK_FIRST resolution double loop (lines 381–388): first alias, in
priority order, for which some candidate has that concept; first such
candidate. -/
def pickFirstFact : List String → List Fact → Option Fact
  | [], _ => none
  | a :: rest, cs =>
    match cs.find? (fun f => f.concept == a) with
    | some f => some f
    | none => pickFirstFact rest cs

/-- `fact.period_key[1] or fact.period_key[0] or ""` (lines 286, 396). -/
def factDate (f : Fact) : String :=
  if f.period_key.2 ≠ "" then f.period_key.2 else f.period_key.1

/-- The accumulation loop of lines 394–398. -/
def accumulate (cs : List Fact) : Accumulator :=
  cs.foldl (fun a f => a.update f.value (factDate f)) {}

/-- Resolution of a candidate list to a final value (lines 377–400). -/
def resolveRule (rr : RuleRef) (candidates : List Fact) : Option ℚ :=
  if rr.strategy = .PICK_FIRST then
    (pickFirstFact rr.aliasesOf candidates).map Fact.value
  else
    (accumulate candidates).result rr.strategy

/-- One year's slot of the result mapping.  The source keeps flat metric
values and the `"segments"`/`"balance_sheet"` sub-dicts in a single Python
dict per year; they are modelled as three separate components (in well-formed
configurations metric names do not collide with the two reserved keys). -/
structure YearData where
  metrics : List (String × ℚ) := []
  segments : List (String × ℚ) := []
  balance_sheet : List (String × List (String × ℚ)) := []
deriving DecidableEq, Repr

instance : Inhabited YearData := ⟨{}⟩

abbrev Results := List (String × YearData)

/-- `rule.category.split(".", 1)[1]`: everything after the first dot. -/
def bsCategorySuffix (cat : String) : String :=
  ⟨splitOnceAfter '.' cat.data⟩

/-- `metrics._place_value`. -/
def _place_value (results : Results) (year : String) (rule : MetricRule)
    (name : String) (value : ℚ) : Results :=
  let ydict := (getKey? results year).getD {}
  let ydict' :=
    match rule.category with
    | some cat =>
      if pyStartsWith cat "balance_sheet." then
        let bs_cat := bsCategorySuffix cat
        let bs := (getKey? ydict.balance_sheet bs_cat).getD []
        { ydict with balance_sheet := setKey ydict.balance_sheet bs_cat (setKey bs name value) }
      else { ydict with metrics := setKey ydict.metrics name value }
    | none => { ydict with metrics := setKey ydict.metrics name value }
  setKey results year ydict'

/-- Placement of a segment value (lines 404–408). -/
def placeSegment (results : Results) (year : String) (s : SegmentRule)
    (value : ℚ) : Results :=
  let ydict := (getKey? results year).getD {}
  setKey results year { ydict with segments := setKey ydict.segments s.name value }

/-- One step of the final placement loop (lines 369–410). -/
def placeEntry (res : Results) (entry : CandKey × List Fact) : Results :=
  match resolveRule entry.1.2 entry.2 with
  | none => res                       -- `final_value is None`: nothing placed
  | some v =>
    match entry.1.2 with
    | .segmentR _ s => placeSegment res entry.1.1 s v
    | .metricR _ m => _place_value res entry.1.1 m m.name v

/-- `metrics.extract_all`, over the index's fact iteration sequence. -/
def extract_all (facts : List Fact) (cfg : CompanyConfig) : Results :=
  let cands := facts.foldl (processFact cfg) []
  cands.foldl placeEntry []

/-! ## Configuration merging (`utils._merge`) -/

/-- A JSON-like configuration value: a mapping or a non-mapping leaf.  The
merge only ever distinguishes mappings from non-mappings
(`isinstance(v, dict)`), so all non-mapping values (strings, numbers, lists,
booleans, null) are modelled by an opaque atom. -/
inductive JVal where
  | obj (entries : List (String × JVal))
  | leaf (tag : String)

mutual
/-- One iteration of the `for k, v in b.items()` loop of `utils._merge`:
writes `out[k]` from the override value `v`, merging recursively when both
`v` and the original default's value at `k` are mappings. -/
def mergeValInto (a : List (String × JVal)) (k : String)
    (out : List (String × JVal)) : JVal → List (String × JVal)
  | .obj bv =>
    match getKey? a k with
    | some (.obj av) => setKey out k (.obj (mergeListInto av av bv))
    | _ => setKey out k (.obj bv)
  | .leaf s => setKey out k (.leaf s)

/-- The `for k, v in b.items()` loop of `utils._merge`: `out` starts as a
copy of `a`, and the dict test on `a.get(k)` always consults the original
`a`. -/
def mergeListInto (a out : List (String × JVal)) :
    List (String × JVal) → List (String × JVal)
  | [] => out
  | (k, v) :: rest => mergeListInto a (mergeValInto a k out v) rest
end

/-- `utils._merge`. -/
def _merge (a b : List (String × JVal)) : List (String × JVal) :=
  mergeListInto a a b

/-! ## Association-list lemmas -/

theorem getKey?_setKey_self {κ β : Type} [DecidableEq κ] (m : List (κ × β)) (k : κ) (v : β) :
    getKey? (setKey m k v) k = some v := by
  induction m with
  | nil => simp [setKey, getKey?]
  | cons p rest ih =>
    obtain ⟨k', v'⟩ := p
    by_cases h : k' = k
    · simp [setKey, h, getKey?]
    · simp [setKey, h, getKey?, ih]

theorem getKey?_setKey_ne {κ β : Type} [DecidableEq κ] (m : List (κ × β)) (k k' : κ) (v : β)
    (h : k' ≠ k) : getKey? (setKey m k' v) k = getKey? m k := by
  induction m with
  | nil => simp [setKey, getKey?, h]
  | cons p rest ih =>
    obtain ⟨k₀, v₀⟩ := p
    by_cases h₀ : k₀ = k'
    · simp [setKey, h₀, getKey?, h]
    · simp [setKey, h₀, getKey?, ih]

theorem getKey?_setKey {κ β : Type} [DecidableEq κ] (m : List (κ × β)) (k k' : κ) (v : β) :
    getKey? (setKey m k' v) k = if k' = k then some v else getKey? m k := by
  by_cases h : k' = k
  · subst h; simp [getKey?_setKey_self]
  · simp [h, getKey?_setKey_ne m k k' v h]

theorem getKey?_eq_none_iff {κ β : Type} [DecidableEq κ] (m : List (κ × β)) (k : κ) :
    getKey? m k = none ↔ k ∉ m.map Prod.fst := by
  induction m with
  | nil => simp [getKey?]
  | cons p rest ih =>
    obtain ⟨k', v'⟩ := p
    by_cases h : k' = k
    · simp [getKey?, h]
    · simp [getKey?, h, ih, Ne.symm h]

theorem getKey?_isSome_of_isSome_foldl_setKey {κ β γ : Type} [DecidableEq κ]
    (step : γ → Option (κ × β)) (l : List γ) :
    ∀ m : List (κ × β), ∀ k : κ,
      (getKey? m k).isSome = true →
      (getKey? (l.foldl (foldStep step) m) k).isSome = true := by
  induction l with
  | nil => intro m k h; exact h
  | cons c rest ih =>
    intro m k h
    simp only [List.foldl_cons, foldStep]
    cases hc : step c with
    | none =>
      simp only [hc]
      exact ih m k h
    | some p =>
      simp only [hc]
      refine ih _ k ?_
      rw [getKey?_setKey]
      split
      · rfl
      · exact h

/-! ## C1: null / empty / superset semantics of `_dims_match` -/

theorem dimsMatchLoop_of_forall_direct (f : Fact) (al : List (String × List String)) :
    ∀ req : List (String × DimExpected),
      (∀ p ∈ req, ∃ v, f.dims.lookup p.1 = some v ∧ v ∈ expList p.2) →
      dimsMatchLoop f al req = true := by
  intro req
  induction req with
  | nil => intro _; rfl
  | cons p rest ih =>
    intro h
    obtain ⟨axis, expected⟩ := p
    obtain ⟨v, hv, hvm⟩ := h (axis, expected) (List.mem_cons_self _ _)
    have hrest := ih (fun q hq => h q (List.mem_cons_of_mem _ hq))
    simp only [dimsMatchLoop, hv]
    simp [hvm, hrest]

/-- C1: a `null`/unset required-dimension value accepts every fact; the empty
required mapping accepts exactly the facts with an empty dimensional mapping;
and a non-empty requirement accepts any fact that carries every required axis
directly with an acceptable value, even when the fact carries additional axes
beyond the required ones (superset match). -/
theorem dims_match_null_empty_superset (f : Fact)
    (al : List (String × List String)) (req : List (String × DimExpected)) :
    _dims_match f none al = true
    ∧ (_dims_match f (some []) al = true ↔ f.dims = [])
    ∧ (req ≠ [] →
        (∀ p ∈ req, ∃ v, f.dims.lookup p.1 = some v ∧ v ∈ expList p.2) →
        _dims_match f (some req) al = true) := by
  refine ⟨rfl, ?_, ?_⟩
  · simp [_dims_match, List.isEmpty_iff]
  · intro hne h
    cases req with
    | nil => exact absurd rfl hne
    | cons p rest =>
      exact dimsMatchLoop_of_forall_direct f al (p :: rest) h

/-- Witness for C1, on a fact carrying the required axis `X` plus an
unrelated axis `Y` (the superset case of the claim). -/
theorem dims_match_null_empty_superset_witness :
    _dims_match ⟨"c", 1, "USD", none, ("", "2024-12-31"), [("X", "v"), ("Y", "w")], "ctx"⟩
      (some [("X", DimExpected.single "v")]) [] = true := by
  refine (dims_match_null_empty_superset _ [] [("X", DimExpected.single "v")]).2.2
    (by simp) ?_
  intro p hp
  simp only [List.mem_singleton] at hp
  subst hp
  exact ⟨"v", rfl, by simp [expList]⟩

/-! ## C2: alias semantics of `_dims_match` -/

/-- The per-axis acceptance condition `_dims_match` actually implements for a
non-empty requirement: when the fact carries the required axis directly, only
the direct value is consulted (aliases are not); otherwise the first
configured alias carried by the fact decides. -/
def axisSatisfied (f : Fact) (al : List (String × List String))
    (axis : String) (expected : DimExpected) : Bool :=
  match f.dims.lookup axis with
  | some v => decide (v ∈ expList expected)
  | none =>
    match firstAliasValue f ((al.lookup axis).getD []) with
    | some v => decide (v ∈ expList expected)
    | none => false

theorem dimsMatchLoop_eq_all (f : Fact) (al : List (String × List String)) :
    ∀ req : List (String × DimExpected),
      dimsMatchLoop f al req = req.all (fun p => axisSatisfied f al p.1 p.2) := by
  intro req
  induction req with
  | nil => rfl
  | cons p rest ih =>
    obtain ⟨axis, expected⟩ := p
    simp only [dimsMatchLoop, List.all_cons]
    cases hd : f.dims.lookup axis with
    | some v =>
      by_cases hv : v ∈ expList expected
      · simp [axisSatisfied, hd, hv, ih]
      · simp [axisSatisfied, hd, hv]
    | none =>
      cases ha : firstAliasValue f ((al.lookup axis).getD []) with
      | some v =>
        by_cases hv : v ∈ expList expected
        · simp [axisSatisfied, hd, ha, hv, ih]
        · simp [axisSatisfied, hd, ha, hv]
      | none => simp [axisSatisfied, hd, ha]

/-- C2 counterexample.  First fact: carries the required axis `X` directly
with the unacceptable value `"bad"`, and also carries the configured alias
`Y` of `X` with the acceptable value `"v"` — the claim says it is accepted,
the code rejects it.  Second fact: carries no required axis directly but two
configured aliases `A1` (value unacceptable) and `A2` (value acceptable) —
the spec's disjunction says it is accepted, the code rejects it because the
first alias found decides. -/
theorem dims_match_alias_claim_counterexample :
    _dims_match ⟨"c", 1, "USD", none, ("", "2024-12-31"), [("X", "bad"), ("Y", "v")], "ctx"⟩
      (some [("X", DimExpected.single "v")]) [("X", ["Y"])] = false
    ∧ _dims_match ⟨"c", 1, "USD", none, ("", "2024-12-31"), [("A1", "w"), ("A2", "v")], "ctx"⟩
      (some [("X", DimExpected.single "v")]) [("X", ["A1", "A2"])] = false := by
  exact ⟨rfl, rfl⟩

/-- C2 (amended): a fact satisfies a non-empty requirement if and only if
every required axis is satisfied with direct-axis precedence: a directly
carried axis must itself have an acceptable value (its aliases are then never
consulted), and only when the axis is absent does the first configured alias
carried by the fact decide.  In particular a fact carrying a required axis
directly with an unacceptable value is rejected even when a configured alias
carries an acceptable one. -/
theorem dims_match_alias_amended (f : Fact) (al : List (String × List String))
    (req : List (String × DimExpected)) (hne : req ≠ []) :
    (_dims_match f (some req) al = true ↔
      ∀ p ∈ req, axisSatisfied f al p.1 p.2 = true)
    ∧ (∀ axis expected v, (axis, expected) ∈ req →
        f.dims.lookup axis = some v → v ∉ expList expected →
        _dims_match f (some req) al = false) := by
  have hloop : _dims_match f (some req) al =
      req.all (fun p => axisSatisfied f al p.1 p.2) := by
    cases req with
    | nil => exact absurd rfl hne
    | cons p rest => exact dimsMatchLoop_eq_all f al (p :: rest)
  constructor
  · rw [hloop, List.all_eq_true]
  · intro axis expected v hmem hv hvm
    rw [hloop]
    rw [Bool.eq_false_iff]
    intro hall
    rw [List.all_eq_true] at hall
    have := hall (axis, expected) hmem
    simp only [axisSatisfied, hv, decide_eq_true_eq] at this
    exact hvm this

/-- Witness for C2's amended theorem: a fact carrying the required axis only
through its configured alias, and the rejection of a fact whose directly
carried axis has an unacceptable value. -/
theorem dims_match_alias_amended_witness :
    (_dims_match ⟨"c", 1, "USD", none, ("", "2024-12-31"), [("A2", "v")], "ctx"⟩
      (some [("X", DimExpected.single "v")]) [("X", ["A1", "A2"])] = true)
    ∧ (_dims_match ⟨"c", 1, "USD", none, ("", "2024-12-31"), [("X", "bad"), ("Y", "v")], "ctx"⟩
      (some [("X", DimExpected.single "v")]) [("X", ["Y"])] = false) := by
  constructor
  · refine (dims_match_alias_amended _ [("X", ["A1", "A2"])]
      [("X", DimExpected.single "v")] (by simp)).1.mpr ?_
    intro p hp
    simp only [List.mem_singleton] at hp
    subst hp
    rfl
  · exact (dims_match_alias_amended _ [("X", ["Y"])]
      [("X", DimExpected.single "v")] (by simp)).2 "X" (DimExpected.single "v") "bad"
      (List.mem_singleton.mpr rfl) rfl (by simp [expList])

/-! ## C3: contexts without a period child -/

/-- C3 counterexample: a context with no period child is indexed with the
period key `("", "")`, but a fact carrying that period key *does* satisfy a
declared `"duration"` period-type constraint (the claim says it satisfies
neither constraint). -/
theorem missing_period_claim_counterexample :
    indexOneContext ⟨some "c1", none, []⟩ = some ("c1", ⟨("", ""), []⟩)
    ∧ _period_type_match ⟨"c", 1, "", none, ("", ""), [], "c1"⟩ (some "duration") = true := by
  exact ⟨rfl, rfl⟩

/-- C3 (amended): a context element lacking a period child is still indexed,
with a period key empty in both slots; a fact referencing it is classified as
a `"duration"` fact, so it never satisfies an `"instant"` period-type
constraint but does satisfy a `"duration"` one — and its derived year is
empty, so `extract_all` skips it before rule matching anyway. -/
theorem missing_period_amended (ctx : RawContext) (cid : String)
    (ctxs : List RawContext) (f : Fact)
    (hid : ctx.id = some cid) (hcid : cid ≠ "") (hp : ctx.period = none)
    (hmem : ctx ∈ ctxs) (hf : f.period_key = ("", "")) :
    (getKey? (_index_contexts ctxs) cid).isSome = true
    ∧ (∃ data, indexOneContext ctx = some (cid, data) ∧ data.period_key = ("", ""))
    ∧ _period_type_match f (some "instant") = false
    ∧ _period_type_match f (some "duration") = true
    ∧ _year_of_fact f = "" := by
  have hone : ∃ data, indexOneContext ctx = some (cid, data) ∧ data.period_key = ("", "") := by
    unfold indexOneContext
    simp only [hid, hp, Option.bind_none, Option.getD_none]
    rw [if_neg hcid]
    exact ⟨_, rfl, rfl⟩
  refine ⟨?_, hone, ?_, ?_, ?_⟩
  · -- once a context id is indexed, later contexts can only overwrite its
    -- value, never remove the key
    obtain ⟨data, hone', _⟩ := hone
    obtain ⟨l₁, l₂, rfl⟩ := List.append_of_mem hmem
    unfold _index_contexts
    rw [List.foldl_append]
    simp only [List.foldl_cons]
    refine getKey?_isSome_of_isSome_foldl_setKey indexOneContext l₂ _ cid ?_
    rw [foldStep, hone', getKey?_setKey_self]
    rfl
  · simp [_period_type_match, _period_type_of_fact, hf]
  · simp [_period_type_match, _period_type_of_fact, hf]
  · simp [_year_of_fact, hf]

/-- Witness for C3's amended theorem, on a one-context document and a fact
with the empty period key. -/
theorem missing_period_amended_witness :
    (getKey? (_index_contexts [⟨some "c1", none, []⟩]) "c1").isSome = true
    ∧ _period_type_match ⟨"c", 1, "", none, ("", ""), [], "c1"⟩ (some "instant") = false := by
  have h := missing_period_amended ⟨some "c1", none, []⟩ "c1" [⟨some "c1", none, []⟩]
    ⟨"c", 1, "", none, ("", ""), [], "c1"⟩ rfl (by simp) rfl (by simp) rfl
  exact ⟨h.1, h.2.2.1⟩

/-! ## Candidate-collection lemmas -/

theorem getKey?_appendCand (st : CandState) (key : CandKey) (f : Fact) (k : CandKey) :
    getKey? (appendCand st key f) k =
      if key = k then some (((getKey? st key).getD []) ++ [f]) else getKey? st k := by
  induction st with
  | nil => by_cases h : key = k <;> simp [appendCand, getKey?, h]
  | cons p rest ih =>
    obtain ⟨k', cs⟩ := p
    by_cases h1 : k' = key
    · subst h1
      by_cases h2 : k' = k <;> simp [appendCand, getKey?, h2]
    · by_cases h2 : k' = k
      · subst h2
        have hk : ¬ key = k' := fun h => h1 h.symm
        simp [appendCand, getKey?, h1, hk, ih]
      · simp [appendCand, getKey?, h1, h2, ih]

/-- `f` is a matching candidate fact for the pair `(y, rr)`: its derived year
is `y` (non-empty), its concept maps to the rule, and the rule's year range
and all matching predicates accept it. -/
def isCandidateFactFor (cfg : CompanyConfig) (f : Fact) (y : String) (rr : RuleRef) : Prop :=
  _year_of_fact f = y ∧ y ≠ "" ∧ rr ∈ rulesFor cfg f.concept
  ∧ year_matches_range (yearToInt y) rr.years = true
  ∧ rulePasses cfg f rr = true

instance (cfg : CompanyConfig) (f : Fact) (y : String) (rr : RuleRef) :
    Decidable (isCandidateFactFor cfg f y rr) := by
  unfold isCandidateFactFor
  infer_instance

/-- `processRule` leaves every key other than `(yr, rr')` untouched, and
creates/updates `(yr, rr')` only when the year range and the predicates
accept the fact. -/
theorem processRule_key_origin (cfg : CompanyConfig) (f : Fact) (yr : String)
    (st : CandState) (rr' : RuleRef) (y : String) (rr : RuleRef)
    (h : (getKey? (processRule cfg f yr st rr') (y, rr)).isSome = true) :
    (getKey? st (y, rr)).isSome = true ∨
      (y = yr ∧ rr = rr'
        ∧ year_matches_range (yearToInt yr) rr'.years = true
        ∧ rulePasses cfg f rr' = true) := by
  by_cases hy : year_matches_range (yearToInt yr) rr'.years = true
  case neg => left; simpa [processRule, hy] using h
  by_cases hp : rulePasses cfg f rr' = true
  case neg => left; simpa [processRule, hy, hp] using h
  by_cases hk : ((yr, rr') : CandKey) = (y, rr)
  · right
    rw [Prod.mk.injEq] at hk
    exact ⟨hk.1.symm, hk.2.symm, hy, hp⟩
  · left
    have hshape : processRule cfg f yr st rr' = st
        ∨ processRule cfg f yr st rr' = appendCand st (yr, rr') f
        ∨ processRule cfg f yr st rr' = setKey st (yr, rr') [f] := by
      unfold processRule
      rw [if_neg (fun hc => hc hy), if_neg (fun hc => hc hp)]
      cases rr' with
      | segmentR i s =>
        by_cases hs : s.strategy = MetricStrategy.PICK_FIRST
        · cases hgk : getKey? st (yr, RuleRef.segmentR i s) with
          | none => right; left; simp [hs, hgk]
          | some cs => left; simp [hs, hgk]
        · right; left; simp [hs]
      | metricR i m =>
        by_cases hs : m.strategy = MetricStrategy.PICK_FIRST
        · cases hgk : getKey? st (yr, RuleRef.metricR i m) with
          | none => right; left; simp [hs, hgk]
          | some cs =>
            cases cs with
            | nil => left; simp [hs, hgk]
            | cons e rest' =>
              by_cases hpri : priLt (aliasPriority m.aliases f.concept)
                  (aliasPriority m.aliases e.concept) = true
              · right; right; simp [hs, hgk, hpri]
              · left; simp [hs, hgk, hpri]
        · right; left; simp [hs]
    rcases hshape with hres | hres | hres
    · rwa [hres] at h
    · rw [hres, getKey?_appendCand] at h
      simpa [hk] using h
    · rwa [hres, getKey?_setKey_ne st _ _ _ hk] at h

theorem foldl_processRule_key_origin (cfg : CompanyConfig) (f : Fact) (yr : String)
    (y : String) (rr : RuleRef) (rl : List RuleRef) :
    ∀ st : CandState,
      (getKey? (rl.foldl (processRule cfg f yr) st) (y, rr)).isSome = true →
      (getKey? st (y, rr)).isSome = true ∨
        (y = yr ∧ rr ∈ rl
          ∧ year_matches_range (yearToInt yr) rr.years = true
          ∧ rulePasses cfg f rr = true) := by
  induction rl with
  | nil => intro st h; exact Or.inl h
  | cons rr' rest ih =>
    intro st h
    rcases ih (processRule cfg f yr st rr') h with h' | ⟨h1, h2, h3, h4⟩
    · rcases processRule_key_origin cfg f yr st rr' y rr h' with h'' | ⟨h1, h2, h3, h4⟩
      · exact Or.inl h''
      · subst h2
        exact Or.inr ⟨h1, List.mem_cons_self _ _, h3, h4⟩
    · exact Or.inr ⟨h1, List.mem_cons_of_mem _ h2, h3, h4⟩

theorem processFact_key_origin (cfg : CompanyConfig) (st : CandState) (f : Fact)
    (y : String) (rr : RuleRef)
    (h : (getKey? (processFact cfg st f) (y, rr)).isSome = true) :
    (getKey? st (y, rr)).isSome = true ∨ isCandidateFactFor cfg f y rr := by
  by_cases hy : _year_of_fact f = ""
  · left; simpa [processFact, hy] using h
  · rw [processFact, if_neg hy] at h
    rcases foldl_processRule_key_origin cfg f (_year_of_fact f) y rr
        (rulesFor cfg f.concept) st h with h' | ⟨h1, h2, h3, h4⟩
    · exact Or.inl h'
    · subst h1
      exact Or.inr ⟨rfl, hy, h2, h3, h4⟩

/-- Origin of candidate keys: every key present after processing all facts
either was present initially or stems from a matching candidate fact. -/
theorem candidates_key_origin (cfg : CompanyConfig) (facts : List Fact)
    (y : String) (rr : RuleRef) :
    ∀ st₀ : CandState,
      (getKey? (facts.foldl (processFact cfg) st₀) (y, rr)).isSome = true →
      (getKey? st₀ (y, rr)).isSome = true
        ∨ ∃ f ∈ facts, isCandidateFactFor cfg f y rr := by
  induction facts with
  | nil => intro st₀ h; exact Or.inl h
  | cons f rest ih =>
    intro st₀ h
    rcases ih (processFact cfg st₀ f) h with h' | ⟨g, hg, hcand⟩
    · rcases processFact_key_origin cfg st₀ f y rr h' with h'' | hcand
      · exact Or.inl h''
      · exact Or.inr ⟨f, List.mem_cons_self _ _, hcand⟩
    · exact Or.inr ⟨g, List.mem_cons_of_mem _ hg, hcand⟩

/-! ## C7: year-range applicability -/

/-- C7: an unset range accepts every year; a range string without a dash
accepts exactly its own year; a "start-end" string accepts exactly the
inclusive interval (shown for the claim's range "2020-2022"); a fact can
contribute a candidate for a rule only when its derived year passes the
rule's range; and concretely, a rule ranged "2020-2022" contributes nothing
for a fact with derived year 2023. -/
theorem year_range_filtering (y n : Int) (s : String) (facts : List Fact)
    (cfg : CompanyConfig) (y' : String) (rr : RuleRef) :
    year_matches_range y none = true
    ∧ (s ≠ "" → pyContainsChar s '-' = false → pyInt s = some n →
        year_matches_range y (some s) = (y == n))
    ∧ (year_matches_range y (some "2020-2022") = true ↔ 2020 ≤ y ∧ y ≤ 2022)
    ∧ ((getKey? (facts.foldl (processFact cfg) []) (y', rr)).isSome = true →
        year_matches_range (yearToInt y') rr.years = true)
    ∧ extract_all [⟨"us-gaap:Revenues", 5, "USD", none, ("2023-01-01", "2023-12-31"), [], "c"⟩]
        { metrics := [{ name := "revenues", aliases := ["us-gaap:Revenues"],
                        years := some "2020-2022" }] } = [] := by
  refine ⟨rfl, ?_, ?_, ?_, by decide⟩
  · intro hs hd hn
    simp [year_matches_range, hs, hd, hn]
  · have hsplit : pySplit "2020-2022" '-' = ["2020", "2022"] := by decide
    simp [year_matches_range, hsplit, pyContainsChar, show pyInt "2020" = some 2020 by decide,
      show pyInt "2022" = some 2022 by decide]
  · intro h
    rcases candidates_key_origin cfg facts y' rr [] h with h' | ⟨f, _, hcand⟩
    · simp [getKey?] at h'
    · exact hcand.1 ▸ hcand.2.2.2.1

/-- Witness for C7: the single-year form at 2021, the interval form at 2021,
and a candidate key whose rule has no declared range. -/
theorem year_range_filtering_witness :
    year_matches_range 2021 (some "2021") = (2021 == 2021)
    ∧ (year_matches_range 2021 (some "2020-2022") = true)
    ∧ year_matches_range
        (yearToInt "2024")
        (RuleRef.metricR 0 { name := "revenues", aliases := ["us-gaap:Revenues"] }).years = true := by
  have h := year_range_filtering 2021 2021 "2021"
    [⟨"us-gaap:Revenues", 12345, "USD", some "0", ("2024-01-01", "2024-12-31"), [], "D2024"⟩]
    { metrics := [{ name := "revenues", aliases := ["us-gaap:Revenues"] }] }
    "2024" (RuleRef.metricR 0 { name := "revenues", aliases := ["us-gaap:Revenues"] })
  exact ⟨h.2.1 (by decide) (by decide) (by decide),
    h.2.2.1.mpr (by norm_num), h.2.2.2.1 (by decide)⟩

/-! ## Order facts about python string comparison -/

theorem charListLt_irrefl : ∀ a : List Char, charListLt a a = false := by
  intro a
  induction a with
  | nil => rfl
  | cons x xs ih => simp [charListLt, ih]

theorem charListLt_trans : ∀ a b c : List Char,
    charListLt a b = true → charListLt b c = true → charListLt a c = true := by
  intro a
  induction a with
  | nil =>
    intro b c hab hbc
    cases b with
    | nil => simp [charListLt] at hab
    | cons y ys =>
      cases c with
      | nil => simp [charListLt] at hbc
      | cons z zs => rfl
  | cons x xs ih =>
    intro b c hab hbc
    cases b with
    | nil => simp [charListLt] at hab
    | cons y ys =>
      cases c with
      | nil => simp [charListLt] at hbc
      | cons z zs =>
        simp only [charListLt] at hab hbc ⊢
        by_cases hxy : x < y
        · -- x < y, and y ≤ z, so x < z
          by_cases hyz : y < z
          · simp [lt_trans hxy hyz]
          · by_cases hzy : z < y
            · simp [hyz, hzy] at hbc
            · have : y = z := le_antisymm (not_lt.mp hzy) (not_lt.mp hyz)
              subst this
              simp [hxy]
        · by_cases hyx : y < x
          · simp [hxy, hyx] at hab
          · have hxyeq : x = y := le_antisymm (not_lt.mp hyx) (not_lt.mp hxy)
            subst hxyeq
            simp only [hxy, if_neg (lt_irrefl x), if_false] at hab
            by_cases hyz : x < z
            · simp [hyz]
            · by_cases hzy : z < x
              · simp [hyz, hzy] at hbc
              · have : x = z := le_antisymm (not_lt.mp hzy) (not_lt.mp hyz)
                subst this
                simp only [hyz, if_neg (lt_irrefl x), if_false] at hbc
                simp [lt_irrefl, ih _ _ hab hbc]

theorem charListLt_total : ∀ a b : List Char,
    charListLt a b = false → charListLt b a = true ∨ a = b := by
  intro a
  induction a with
  | nil =>
    intro b h
    cases b with
    | nil => right; rfl
    | cons y ys => simp [charListLt] at h
  | cons x xs ih =>
    intro b h
    cases b with
    | nil => left; rfl
    | cons y ys =>
      simp only [charListLt] at h ⊢
      by_cases hxy : x < y
      · simp [hxy] at h
      · by_cases hyx : y < x
        · left; simp [hyx]
        · have hxyeq : x = y := le_antisymm (not_lt.mp hyx) (not_lt.mp hxy)
          subst hxyeq
          simp only [hxy, if_neg (lt_irrefl x), if_false] at h
          rcases ih ys h with h' | h'
          · left; simp [lt_irrefl, h']
          · right; rw [h']

theorem pyStrLt_irrefl (s : String) : pyStrLt s s = false :=
  charListLt_irrefl s.data

theorem pyStrLt_trans {s t u : String} (h1 : pyStrLt s t = true)
    (h2 : pyStrLt t u = true) : pyStrLt s u = true :=
  charListLt_trans s.data t.data u.data h1 h2

theorem pyStrLt_total {s t : String} (h : pyStrLt s t = false) :
    pyStrLt t s = true ∨ s = t := by
  rcases charListLt_total s.data t.data h with h' | h'
  · exact Or.inl h'
  · right
    cases s with
    | mk ds =>
      cases t with
      | mk dt => exact congrArg String.mk h'

/-! ## C6: aggregation strategies -/

theorem foldAcc_count_total (cs : List Fact) :
    ∀ a : Accumulator,
      (cs.foldl (fun acc f => acc.update f.value (factDate f)) a).count = a.count + cs.length
      ∧ (cs.foldl (fun acc f => acc.update f.value (factDate f)) a).total
          = a.total + (cs.map Fact.value).sum := by
  induction cs with
  | nil => intro a; simp
  | cons f rest ih =>
    intro a
    obtain ⟨hc, ht⟩ := ih (a.update f.value (factDate f))
    constructor
    · rw [List.foldl_cons, hc]
      simp [Accumulator.update]
      omega
    · rw [List.foldl_cons, ht]
      simp [Accumulator.update]
      ring

theorem foldAcc_latest (cs : List Fact) :
    ∀ (a : Accumulator) (d : String) (v : ℚ),
      a.latest_date = some d → a.latest_value = some v →
      ∃ d' v',
        (cs.foldl (fun acc f => acc.update f.value (factDate f)) a).latest_date = some d'
        ∧ (cs.foldl (fun acc f => acc.update f.value (factDate f)) a).latest_value = some v'
        ∧ pyStrLt d' d = false
        ∧ ((d' = d ∧ v' = v) ∨ ∃ g ∈ cs, d' = factDate g ∧ v' = g.value)
        ∧ (∀ h ∈ cs, pyStrLt d' (factDate h) = false) := by
  induction cs with
  | nil =>
    intro a d v hd hv
    exact ⟨d, v, hd, hv, pyStrLt_irrefl d, Or.inl ⟨rfl, rfl⟩, by simp⟩
  | cons f rest ih =>
    intro a d v hd hv
    by_cases hlt : pyStrLt d (factDate f) = true
    · obtain ⟨d', v', h1, h2, h3, h4, h5⟩ :=
        ih (a.update f.value (factDate f)) (factDate f) f.value
          (by simp [Accumulator.update, hd, hlt]) (by simp [Accumulator.update, hd, hlt])
      refine ⟨d', v', h1, h2, ?_, ?_, ?_⟩
      · cases hcon : pyStrLt d' d with
        | false => rfl
        | true => exact absurd (pyStrLt_trans hcon hlt) (by simp [h3])
      · rcases h4 with ⟨hde, hve⟩ | ⟨g, hg, hge⟩
        · exact Or.inr ⟨f, List.mem_cons_self _ _, hde, hve⟩
        · exact Or.inr ⟨g, List.mem_cons_of_mem _ hg, hge⟩
      · intro h hh
        rcases List.mem_cons.mp hh with rfl | hh'
        · exact h3
        · exact h5 h hh'
    · rw [Bool.not_eq_true] at hlt
      obtain ⟨d', v', h1, h2, h3, h4, h5⟩ :=
        ih (a.update f.value (factDate f)) d v
          (by simp [Accumulator.update, hd, hlt]) (by simp [Accumulator.update, hd, hlt, hv])
      refine ⟨d', v', h1, h2, h3, ?_, ?_⟩
      · rcases h4 with ⟨hde, hve⟩ | ⟨g, hg, hge⟩
        · exact Or.inl ⟨hde, hve⟩
        · exact Or.inr ⟨g, List.mem_cons_of_mem _ hg, hge⟩
      · intro h hh
        rcases List.mem_cons.mp hh with rfl | hh'
        · cases hcon : pyStrLt d' (factDate h) with
          | false => rfl
          | true =>
            rcases pyStrLt_total hlt with h' | h'
            · exact absurd (pyStrLt_trans hcon h') (by simp [h3])
            · rw [← h'] at hcon
              exact absurd hcon (by simp [h3])
        · exact h5 h hh'

/-- C6: for a non-empty candidate list, the `sum` strategy yields the sum of
all candidate values, the `avg` strategy their arithmetic mean, and the
`latest_in_year` strategy the value of a candidate whose end-or-start date is
lexicographically greatest among the candidates. -/
theorem aggregation_strategies (rr : RuleRef) (cs : List Fact) (hne : cs ≠ []) :
    (rr.strategy = .SUM → resolveRule rr cs = some ((cs.map Fact.value).sum))
    ∧ (rr.strategy = .AVG →
        resolveRule rr cs = some ((cs.map Fact.value).sum / (cs.length : ℚ)))
    ∧ (rr.strategy = .LATEST_IN_YEAR →
        ∃ g ∈ cs, resolveRule rr cs = some g.value
          ∧ ∀ h ∈ cs, pyStrLt (factDate g) (factDate h) = false) := by
  have hcount := (foldAcc_count_total cs {}).1
  have htotal := (foldAcc_count_total cs {}).2
  have hlen : cs.length ≠ 0 := fun h => hne (List.length_eq_zero.mp h)
  refine ⟨?_, ?_, ?_⟩
  · intro hs
    rw [resolveRule, if_neg (by rw [hs]; intro h; cases h), hs]
    rw [Accumulator.result, accumulate]
    rw [if_neg (by rw [hcount]; simpa using hlen)]
    rw [htotal]
    norm_num
  · intro hs
    rw [resolveRule, if_neg (by rw [hs]; intro h; cases h), hs]
    rw [Accumulator.result, accumulate]
    rw [if_neg (by rw [hcount]; simpa using hlen)]
    rw [htotal, hcount]
    norm_num
  · intro hs
    cases cs with
    | nil => exact absurd rfl hne
    | cons c rest =>
      have hupd : ({} : Accumulator).update c.value (factDate c)
          = { count := 1, total := c.value, max_val := some c.value,
              min_val := some c.value, latest_value := some c.value,
              latest_date := some (factDate c) } := by
        simp [Accumulator.update]
      obtain ⟨d', v', h1, h2, h3, h4, h5⟩ :=
        foldAcc_latest rest (({} : Accumulator).update c.value (factDate c))
          (factDate c) c.value (by rw [hupd]) (by rw [hupd])
      have hres : resolveRule rr (c :: rest) = some v' := by
        rw [resolveRule, if_neg (by rw [hs]; intro h; cases h), hs]
        rw [Accumulator.result, accumulate]
        rw [if_neg (by rw [(foldAcc_count_total (c :: rest) {}).1]; simp)]
        exact h2
      have hdom : ∀ h ∈ c :: rest, pyStrLt d' (factDate h) = false := by
        intro h hh
        rcases List.mem_cons.mp hh with rfl | hh'
        · exact h3
        · exact h5 h hh'
      rcases h4 with ⟨hde, hve⟩ | ⟨g, hg, hde, hve⟩
      · exact ⟨c, List.mem_cons_self _ _, hve ▸ hres,
          fun h hh => hde ▸ hdom h hh⟩
      · exact ⟨g, List.mem_cons_of_mem _ hg, hve ▸ hres,
          fun h hh => hde ▸ hdom h hh⟩

/-- The claim's example candidates: three duration facts with values
10, 20, 30 and dates 2024-03-31, 2024-06-30, 2024-09-30. -/
def exampleCandidates : List Fact :=
  [⟨"s:X", 10, "USD", none, ("2024-01-01", "2024-03-31"), [], "c1"⟩,
   ⟨"s:X", 20, "USD", none, ("2024-01-01", "2024-06-30"), [], "c2"⟩,
   ⟨"s:X", 30, "USD", none, ("2024-01-01", "2024-09-30"), [], "c3"⟩]

/-- Witness for C6 on the claim's example: sum 60, avg 20, latest 30. -/
theorem aggregation_strategies_witness :
    resolveRule (.metricR 0 { name := "m", aliases := ["s:X"], strategy := .SUM })
      exampleCandidates = some 60
    ∧ resolveRule (.metricR 0 { name := "m", aliases := ["s:X"], strategy := .AVG })
      exampleCandidates = some 20
    ∧ resolveRule (.metricR 0 { name := "m", aliases := ["s:X"], strategy := .LATEST_IN_YEAR })
      exampleCandidates = some 30
    ∧ ∃ g ∈ exampleCandidates,
        resolveRule (.metricR 0 { name := "m", aliases := ["s:X"], strategy := .LATEST_IN_YEAR })
          exampleCandidates = some g.value
        ∧ ∀ h ∈ exampleCandidates, pyStrLt (factDate g) (factDate h) = false := by
  refine ⟨?_, ?_, by decide, ?_⟩
  · have h := (aggregation_strategies
      (.metricR 0 { name := "m", aliases := ["s:X"], strategy := .SUM })
      exampleCandidates (by decide)).1 rfl
    rw [h]; norm_num [exampleCandidates]
  · have h := (aggregation_strategies
      (.metricR 0 { name := "m", aliases := ["s:X"], strategy := .AVG })
      exampleCandidates (by decide)).2.1 rfl
    rw [h]; norm_num [exampleCandidates]
  · exact (aggregation_strategies
      (.metricR 0 { name := "m", aliases := ["s:X"], strategy := .LATEST_IN_YEAR })
      exampleCandidates (by decide)).2.2 rfl

/-! ## C9: deep-merge semantics of `_merge` -/

theorem getKey?_mergeValInto_ne (a : List (String × JVal)) (k' k : String)
    (out : List (String × JVal)) (v : JVal) (h : k' ≠ k) :
    getKey? (mergeValInto a k' out v) k = getKey? out k := by
  cases v with
  | leaf s => exact getKey?_setKey_ne out k k' _ h
  | obj bv =>
    rw [mergeValInto]
    split
    · exact getKey?_setKey_ne out k k' _ h
    · exact getKey?_setKey_ne out k k' _ h

theorem getKey?_mergeListInto_not_mem (a : List (String × JVal)) :
    ∀ (b out : List (String × JVal)) (k : String),
      k ∉ b.map Prod.fst →
      getKey? (mergeListInto a out b) k = getKey? out k := by
  intro b
  induction b with
  | nil => intro out k _; rfl
  | cons p rest ih =>
    intro out k h
    obtain ⟨k', v⟩ := p
    simp only [List.map_cons, List.mem_cons, not_or] at h
    obtain ⟨hk, hrest⟩ := h
    rw [mergeListInto, ih _ _ hrest]
    exact getKey?_mergeValInto_ne a k' k out v (fun he => hk he.symm)

theorem getKey?_mergeListInto (a : List (String × JVal)) :
    ∀ (b out : List (String × JVal)) (k : String),
      (b.map Prod.fst).Nodup →
      getKey? (mergeListInto a out b) k =
        match getKey? b k with
        | none => getKey? out k
        | some v =>
          match v, getKey? a k with
          | .obj bv, some (.obj av) => some (.obj (mergeListInto av av bv))
          | _, _ => some v := by
  intro b
  induction b with
  | nil => intro out k _; rfl
  | cons p rest ih =>
    intro out k hnd
    obtain ⟨k', v⟩ := p
    simp only [List.map_cons, List.nodup_cons] at hnd
    obtain ⟨hk', hnd'⟩ := hnd
    by_cases hkk : k' = k
    · subst hkk
      rw [mergeListInto, getKey?_mergeListInto_not_mem a rest _ k' hk']
      have hb : getKey? ((k', v) :: rest) k' = some v := by simp [getKey?]
      rw [hb]
      cases v with
      | leaf s => simp only [mergeValInto, getKey?_setKey_self]
      | obj bv =>
        rw [mergeValInto]
        cases ha : getKey? a k' with
        | none => simp only [getKey?_setKey_self]
        | some w =>
          cases w with
          | leaf s => simp only [getKey?_setKey_self]
          | obj av => simp only [getKey?_setKey_self]
    · rw [mergeListInto, ih _ _ hnd']
      have hcons : getKey? ((k', v) :: rest) k = getKey? rest k := by
        simp [getKey?, hkk]
      rw [hcons]
      cases hgr : getKey? rest k with
      | some w => rfl
      | none => exact getKey?_mergeValInto_ne a k' k out v hkk

/-- Lookup characterization of `utils._merge` (override dict keys unique, as
Python dicts guarantee). -/
theorem getKey?_merge (a b : List (String × JVal)) (k : String)
    (hnd : (b.map Prod.fst).Nodup) :
    getKey? (_merge a b) k =
      match getKey? b k with
      | none => getKey? a k
      | some v =>
        match v, getKey? a k with
        | .obj bv, some (.obj av) => some (.obj (_merge av bv))
        | _, _ => some v :=
  getKey?_mergeListInto a b a k hnd

/-- C9: deep-merge semantics — a key mapping-valued on both sides merges
recursively; any other key present in the override takes the override's
value; keys only in the default keep the default's value. -/
theorem config_merge_deep (a b : List (String × JVal)) (k : String)
    (hnd : (b.map Prod.fst).Nodup) :
    (∀ av bv, getKey? a k = some (.obj av) → getKey? b k = some (.obj bv) →
        getKey? (_merge a b) k = some (.obj (_merge av bv)))
    ∧ (∀ v, getKey? b k = some v →
        (∀ bv, v = .obj bv → ∀ av, getKey? a k ≠ some (.obj av)) →
        getKey? (_merge a b) k = some v)
    ∧ (getKey? b k = none → getKey? (_merge a b) k = getKey? a k) := by
  refine ⟨?_, ?_, ?_⟩
  · intro av bv ha hb
    rw [getKey?_merge a b k hnd, hb, ha]
  · intro v hb hnot
    rw [getKey?_merge a b k hnd, hb]
    cases v with
    | leaf s => rfl
    | obj bv =>
      cases ha : getKey? a k with
      | none => rfl
      | some w =>
        cases w with
        | leaf s => rfl
        | obj av => exact absurd ha (hnot bv rfl av)
  · intro hb
    rw [getKey?_merge a b k hnd, hb]

/-- Witness for C9: a nested mapping merged recursively, a leaf replaced
wholesale by the override, and a default-only key preserved. -/
theorem config_merge_deep_witness :
    getKey? (_merge [("m", JVal.obj [("x", JVal.leaf "1")]), ("d", JVal.leaf "D")]
                    [("m", JVal.obj [("y", JVal.leaf "2")]), ("r", JVal.leaf "R")]) "m"
      = some (JVal.obj (_merge [("x", JVal.leaf "1")] [("y", JVal.leaf "2")]))
    ∧ getKey? (_merge [("m", JVal.obj [("x", JVal.leaf "1")]), ("d", JVal.leaf "D")]
                    [("m", JVal.obj [("y", JVal.leaf "2")]), ("r", JVal.leaf "R")]) "r"
      = some (JVal.leaf "R")
    ∧ getKey? (_merge [("m", JVal.obj [("x", JVal.leaf "1")]), ("d", JVal.leaf "D")]
                    [("m", JVal.obj [("y", JVal.leaf "2")]), ("r", JVal.leaf "R")]) "d"
      = some (JVal.leaf "D") := by
  have hnd : ((([("m", JVal.obj [("y", JVal.leaf "2")]), ("r", JVal.leaf "R")] :
      List (String × JVal))).map Prod.fst).Nodup := by decide
  refine ⟨?_, ?_, ?_⟩
  · exact (config_merge_deep _ _ "m" hnd).1 [("x", JVal.leaf "1")] [("y", JVal.leaf "2")] rfl rfl
  · exact (config_merge_deep _ _ "r" hnd).2.1 (JVal.leaf "R") rfl
      (fun bv h => by cases h)
  · exact (config_merge_deep _ _ "d" hnd).2.2 rfl

/-! ## C4: last-write-wins uniqueness of the fact index -/

theorem find?_append {α : Type} (p : α → Bool) (l₁ l₂ : List α) :
    (l₁ ++ l₂).find? p =
      match l₁.find? p with
      | some x => some x
      | none => l₂.find? p := by
  induction l₁ with
  | nil => rfl
  | cons x rest ih =>
    by_cases hx : p x
    · simp [List.find?, hx]
    · simp only [List.cons_append, List.find?, Bool.not_eq_true] at *
      rw [hx]
      simpa [hx] using ih

/-- The reading of a key after an index-building fold: the value of the last
element that produced the key, or the initial value. -/
theorem getKey?_foldl_foldStep {κ β γ : Type} [DecidableEq κ] (step : γ → Option (κ × β)) :
    ∀ (l : List γ) (m : List (κ × β)) (k : κ),
      getKey? (l.foldl (foldStep step) m) k =
        match (l.reverse.filterMap step).find? (fun p => decide (p.1 = k)) with
        | some p => some p.2
        | none => getKey? m k := by
  intro l
  induction l with
  | nil => intro m k; rfl
  | cons c rest ih =>
    intro m k
    rw [List.foldl_cons, ih]
    rw [List.reverse_cons, List.filterMap_append, find?_append]
    cases hfr : (rest.reverse.filterMap step).find? (fun p => decide (p.1 = k)) with
    | some p => rfl
    | none =>
      simp only []
      cases hc : step c with
      | none => simp [List.filterMap, hc, foldStep]
      | some p =>
        obtain ⟨k', v⟩ := p
        by_cases hk : k' = k
        · subst hk
          simp [List.filterMap, hc, List.find?, foldStep, getKey?_setKey_self]
        · simp [List.filterMap, hc, List.find?, hk, foldStep,
            getKey?_setKey_ne m k k' v hk]

theorem keys_setKey {κ β : Type} [DecidableEq κ] :
    ∀ (m : List (κ × β)) (k : κ) (v : β),
      (setKey m k v).map Prod.fst =
        if k ∈ m.map Prod.fst then m.map Prod.fst else m.map Prod.fst ++ [k] := by
  intro m
  induction m with
  | nil => intro k v; simp [setKey]
  | cons p rest ih =>
    intro k v
    obtain ⟨k', v'⟩ := p
    by_cases hk : k' = k
    · subst hk
      simp [setKey]
    · simp only [setKey, if_neg hk, List.map_cons, List.mem_cons]
      rw [ih k v]
      by_cases hmem : k ∈ rest.map Prod.fst
      · simp [hmem, Ne.symm hk]
      · simp [hmem, Ne.symm hk]

theorem nodup_keys_setKey {κ β : Type} [DecidableEq κ] (m : List (κ × β)) (k : κ) (v : β)
    (h : (m.map Prod.fst).Nodup) : ((setKey m k v).map Prod.fst).Nodup := by
  rw [keys_setKey]
  by_cases hmem : k ∈ m.map Prod.fst
  · simpa [hmem] using h
  · rw [if_neg hmem]
    rw [List.nodup_append]
    exact ⟨h, List.nodup_singleton k, by simpa [List.disjoint_singleton] using hmem⟩

theorem nodup_keys_foldl_foldStep {κ β γ : Type} [DecidableEq κ] (step : γ → Option (κ × β)) :
    ∀ (l : List γ) (m : List (κ × β)),
      (m.map Prod.fst).Nodup → ((l.foldl (foldStep step) m).map Prod.fst).Nodup := by
  intro l
  induction l with
  | nil => intro m h; exact h
  | cons c rest ih =>
    intro m h
    rw [List.foldl_cons]
    refine ih _ ?_
    rw [foldStep]
    cases hc : step c with
    | none => exact h
    | some p => exact nodup_keys_setKey m p.1 p.2 h

/-- C4: when two candidate fact elements resolve to the same uniqueness key
`(concept, period key, sorted dims)` and no later element produces that key,
the built index holds, at that key, exactly the fact of the later element
(value, unit, decimals and context id included), and the index's keys are
free of duplicates. -/
theorem index_facts_last_write_wins (contexts : List (String × ContextData))
    (l₁ l₂ l₃ : List RawElem) (e₁ e₂ : RawElem) (k : FactKey) (f₁ f₂ : Fact)
    (h₁ : mkFactElem contexts e₁ = some (k, f₁))
    (h₂ : mkFactElem contexts e₂ = some (k, f₂))
    (h₃ : ∀ e ∈ l₃, ∀ f', mkFactElem contexts e ≠ some (k, f')) :
    getKey? (_index_facts contexts (l₁ ++ e₁ :: l₂ ++ e₂ :: l₃)) k = some f₂
    ∧ ((_index_facts contexts (l₁ ++ e₁ :: l₂ ++ e₂ :: l₃)).map Prod.fst).Nodup := by
  constructor
  · rw [_index_facts, getKey?_foldl_foldStep]
    have hrev : (l₁ ++ e₁ :: l₂ ++ e₂ :: l₃).reverse
        = l₃.reverse ++ e₂ :: (l₂.reverse ++ e₁ :: l₁.reverse) := by
      simp
    rw [hrev, List.filterMap_append, find?_append]
    have hl₃ : (l₃.reverse.filterMap (mkFactElem contexts)).find?
        (fun p => decide (p.1 = k)) = none := by
      rw [List.find?_eq_none]
      intro x hx
      obtain ⟨e, he, hstep⟩ := List.mem_filterMap.mp hx
      simp only [decide_eq_true_eq]
      intro hxk
      refine h₃ e (List.mem_reverse.mp he) x.2 ?_
      rw [hstep, ← hxk]
    rw [hl₃]
    simp [List.filterMap_cons, h₂, List.find?]
  · exact nodup_keys_foldl_foldStep (mkFactElem contexts) _ [] (by simp)

/-- Witness for C4: two `us-gaap:Revenues` elements referencing the same
context (values 11 then 22); the index holds one fact with value 22. -/
theorem index_facts_last_write_wins_witness :
    getKey? (_index_facts (_index_contexts [⟨some "D2024", some ⟨some "2024-01-01", some "2024-12-31", none⟩, []⟩])
        [⟨"Revenues", some "us-gaap", some "D2024", some 11, some "USD", some "0", none⟩,
         ⟨"Revenues", some "us-gaap", some "D2024", some 22, some "USD", some "0", none⟩])
      ("us-gaap:Revenues", ("2024-01-01", "2024-12-31"), [])
    = some ⟨"us-gaap:Revenues", 22, "USD", some "0", ("2024-01-01", "2024-12-31"), [], "D2024"⟩ := by
  have h := index_facts_last_write_wins
    (_index_contexts [⟨some "D2024", some ⟨some "2024-01-01", some "2024-12-31", none⟩, []⟩])
    [] [] []
    ⟨"Revenues", some "us-gaap", some "D2024", some 11, some "USD", some "0", none⟩
    ⟨"Revenues", some "us-gaap", some "D2024", some 22, some "USD", some "0", none⟩
    ("us-gaap:Revenues", ("2024-01-01", "2024-12-31"), [])
    ⟨"us-gaap:Revenues", 11, "USD", some "0", ("2024-01-01", "2024-12-31"), [], "D2024"⟩
    ⟨"us-gaap:Revenues", 22, "USD", some "0", ("2024-01-01", "2024-12-31"), [], "D2024"⟩
    (by decide) (by decide) (by intro e he; cases he)
  exact h.1

/-! ## C10: result years stem from fact dates -/

theorem getKey?_isSome_of_mem {κ β : Type} [DecidableEq κ] (m : List (κ × β))
    (e : κ × β) (h : e ∈ m) : (getKey? m e.1).isSome = true := by
  induction m with
  | nil => cases h
  | cons p rest ih =>
    rcases List.mem_cons.mp h with rfl | h'
    · simp [getKey?]
    · by_cases hk : p.1 = e.1
      · simp [getKey?, hk]
      · simp only [getKey?, if_neg hk]
        exact ih h'

theorem placeEntry_year_origin (res : Results) (e : CandKey × List Fact) (y : String)
    (h : (getKey? (placeEntry res e) y).isSome = true) :
    (getKey? res y).isSome = true ∨ y = e.1.1 := by
  rw [placeEntry] at h
  cases hres : resolveRule e.1.2 e.2 with
  | none => rw [hres] at h; exact Or.inl h
  | some v =>
    rw [hres] at h
    by_cases hy : e.1.1 = y
    · exact Or.inr hy.symm
    · left
      cases hrr : e.1.2 with
      | segmentR i s =>
        rw [hrr] at h
        simp only [placeSegment] at h
        rwa [getKey?_setKey_ne _ _ _ _ hy] at h
      | metricR i m =>
        rw [hrr] at h
        simp only [_place_value] at h
        rwa [getKey?_setKey_ne _ _ _ _ hy] at h

theorem fold_placeEntry_year_origin :
    ∀ (cands : List (CandKey × List Fact)) (res : Results) (y : String),
      (getKey? (cands.foldl placeEntry res) y).isSome = true →
      (getKey? res y).isSome = true ∨ ∃ e ∈ cands, e.1.1 = y := by
  intro cands
  induction cands with
  | nil => intro res y h; exact Or.inl h
  | cons e rest ih =>
    intro res y h
    rcases ih (placeEntry res e) y h with h' | ⟨e', he', hy⟩
    · rcases placeEntry_year_origin res e y h' with h'' | hy
      · exact Or.inl h''
      · exact Or.inr ⟨e, List.mem_cons_self _ _, hy.symm⟩
    · exact Or.inr ⟨e', List.mem_cons_of_mem _ he', hy⟩

/-- C10: every top-level key of `extract_all`'s result is the non-empty
derived year of some fact of the index; and a fact with an empty period key
has an empty derived year and is skipped whole by the per-fact loop. -/
theorem result_years_from_facts (facts : List Fact) (cfg : CompanyConfig)
    (y : String) (f : Fact) (st : CandState) :
    ((getKey? (extract_all facts cfg) y).isSome = true →
      y ≠ "" ∧ ∃ g ∈ facts, _year_of_fact g = y)
    ∧ (f.period_key = ("", "") →
        _year_of_fact f = "" ∧ processFact cfg st f = st) := by
  constructor
  · intro h
    rw [extract_all] at h
    rcases fold_placeEntry_year_origin _ [] y h with h' | ⟨e, he, hy⟩
    · simp [getKey?] at h'
    · have hkey : (getKey? (facts.foldl (processFact cfg) []) e.1).isSome = true :=
        getKey?_isSome_of_mem _ e he
      rcases candidates_key_origin cfg facts e.1.1 e.1.2 [] hkey with h'' | ⟨g, hg, hcand⟩
      · simp [getKey?] at h''
      · exact ⟨hy ▸ hcand.2.1, g, hg, hy ▸ hcand.1⟩
  · intro hf
    have hy : _year_of_fact f = "" := by simp [_year_of_fact, hf]
    exact ⟨hy, by rw [processFact, if_pos hy]⟩

/-- Witness for C10: a one-fact index yields only the year "2024", and a fact
with the empty period key is skipped without touching the candidate state. -/
theorem result_years_from_facts_witness :
    ("2024" ≠ "" ∧ ∃ g ∈ [(⟨"us-gaap:Revenues", 12345, "USD", some "0",
        ("2024-01-01", "2024-12-31"), [], "D2024"⟩ : Fact)], _year_of_fact g = "2024")
    ∧ (_year_of_fact ⟨"c", 1, "", none, ("", ""), [], "x"⟩ = ""
        ∧ processFact { metrics := [{ name := "revenues", aliases := ["us-gaap:Revenues"] }] }
            [] ⟨"c", 1, "", none, ("", ""), [], "x"⟩ = []) := by
  have h := result_years_from_facts
    [⟨"us-gaap:Revenues", 12345, "USD", some "0", ("2024-01-01", "2024-12-31"), [], "D2024"⟩]
    { metrics := [{ name := "revenues", aliases := ["us-gaap:Revenues"] }] }
    "2024" ⟨"c", 1, "", none, ("", ""), [], "x"⟩ []
  exact ⟨h.1 (by decide), h.2 rfl⟩

/-! ## C8: rules with zero candidates contribute nothing -/

/-- Some value is recorded under the name `n` for year `y` in the result —
in the flat metrics, the segments sub-mapping, or some balance-sheet
category. -/
def placedName (res : Results) (y n : String) : Prop :=
  ∃ d, getKey? res y = some d ∧
    ((getKey? d.metrics n).isSome = true
      ∨ (getKey? d.segments n).isSome = true
      ∨ ∃ cat bs, getKey? d.balance_sheet cat = some bs ∧ (getKey? bs n).isSome = true)

theorem isSome_getKey?_setKey_elim {κ β : Type} [DecidableEq κ]
    (m : List (κ × β)) (k k' : κ) (v : β)
    (h : (getKey? (setKey m k' v) k).isSome = true) :
    k' = k ∨ (getKey? m k).isSome = true := by
  rw [getKey?_setKey] at h
  by_cases hk : k' = k
  · exact Or.inl hk
  · rw [if_neg hk] at h; exact Or.inr h

/-- All rules of a configuration, with their identities. -/
def allRuleRefs (cfg : CompanyConfig) : List RuleRef :=
  (cfg.metrics.enum.map fun p => RuleRef.metricR p.1 p.2)
  ++ (cfg.segments.enum.map fun p => RuleRef.segmentR p.1 p.2)

theorem rulesFor_subset_allRuleRefs (cfg : CompanyConfig) (c : String) (rr : RuleRef)
    (h : rr ∈ rulesFor cfg c) : rr ∈ allRuleRefs cfg := by
  rw [rulesFor] at h
  rw [allRuleRefs, List.mem_append]
  rcases List.mem_append.mp h with h' | h'
  · left
    obtain ⟨p, hp, hmem⟩ := List.mem_flatMap.mp h'
    obtain ⟨a, _, ha⟩ := List.mem_map.mp hmem
    exact ha ▸ List.mem_map.mpr ⟨p, hp, rfl⟩
  · right
    obtain ⟨p, hp, hpe⟩ := List.mem_map.mp h'
    exact hpe ▸ List.mem_map.mpr ⟨p, (List.mem_filter.mp hp).1, rfl⟩

theorem placeEntry_name_origin (res : Results) (e : CandKey × List Fact) (y n : String)
    (h : placedName (placeEntry res e) y n) :
    placedName res y n ∨ (y = e.1.1 ∧ n = e.1.2.ruleName) := by
  rw [placeEntry] at h
  cases hres : resolveRule e.1.2 e.2 with
  | none => rw [hres] at h; exact Or.inl h
  | some v =>
    rw [hres] at h
    by_cases hy : e.1.1 = y
    case neg =>
      left
      cases hrr : e.1.2 with
      | segmentR i s =>
        rw [hrr] at h
        simp only [placeSegment] at h
        obtain ⟨d, hd, hslot⟩ := h
        rw [getKey?_setKey_ne _ _ _ _ hy] at hd
        exact ⟨d, hd, hslot⟩
      | metricR i m =>
        rw [hrr] at h
        simp only [_place_value] at h
        obtain ⟨d, hd, hslot⟩ := h
        rw [getKey?_setKey_ne _ _ _ _ hy] at hd
        exact ⟨d, hd, hslot⟩
    case pos =>
      subst hy
      cases hrr : e.1.2 with
      | segmentR i s =>
        rw [hrr] at h
        simp only [placeSegment] at h
        obtain ⟨d, hd, hslot⟩ := h
        rw [getKey?_setKey_self] at hd
        have hd' : d = { (getKey? res e.1.1).getD {} with
            segments := setKey ((getKey? res e.1.1).getD {}).segments s.name v } :=
          (Option.some.injEq _ _ ▸ hd).symm
        subst hd'
        cases hyd : getKey? res e.1.1 with
        | none =>
          rcases hslot with hm | hs | ⟨cat, bs, hcat, _⟩
          · simp [hyd, getKey?] at hm
          · rw [hyd] at hs
            rcases isSome_getKey?_setKey_elim _ _ _ _ hs with hn | hs'
            · exact Or.inr ⟨rfl, hn.symm⟩
            · simp [getKey?] at hs'
          · simp [hyd, getKey?] at hcat
        | some d0 =>
          rcases hslot with hm | hs | ⟨cat, bs, hcat, hbs⟩
          · rw [hyd] at hm
            exact Or.inl ⟨d0, hyd, Or.inl hm⟩
          · rw [hyd] at hs
            rcases isSome_getKey?_setKey_elim _ _ _ _ hs with hn | hs'
            · exact Or.inr ⟨rfl, hn.symm⟩
            · exact Or.inl ⟨d0, hyd, Or.inr (Or.inl hs')⟩
          · rw [hyd] at hcat
            exact Or.inl ⟨d0, hyd, Or.inr (Or.inr ⟨cat, bs, hcat, hbs⟩)⟩
      | metricR i m =>
        rw [hrr] at h
        rcases hcat0 : m.category with _ | cat
        case none =>
          simp only [_place_value, hcat0] at h
          obtain ⟨d, hd, hslot⟩ := h
          rw [getKey?_setKey_self] at hd
          have hd' : d = { (getKey? res e.1.1).getD {} with
              metrics := setKey ((getKey? res e.1.1).getD {}).metrics m.name v } :=
            (Option.some.injEq _ _ ▸ hd).symm
          subst hd'
          cases hyd : getKey? res e.1.1 with
          | none =>
            rcases hslot with hm | hs | ⟨cat', bs, hcat, _⟩
            · rw [hyd] at hm
              rcases isSome_getKey?_setKey_elim _ _ _ _ hm with hn | hm'
              · exact Or.inr ⟨rfl, hn.symm⟩
              · simp [getKey?] at hm'
            · simp [hyd, getKey?] at hs
            · simp [hyd, getKey?] at hcat
          | some d0 =>
            rcases hslot with hm | hs | ⟨cat', bs, hcat, hbs⟩
            · rw [hyd] at hm
              rcases isSome_getKey?_setKey_elim _ _ _ _ hm with hn | hm'
              · exact Or.inr ⟨rfl, hn.symm⟩
              · exact Or.inl ⟨d0, hyd, Or.inl hm'⟩
            · rw [hyd] at hs
              exact Or.inl ⟨d0, hyd, Or.inr (Or.inl hs)⟩
            · rw [hyd] at hcat
              exact Or.inl ⟨d0, hyd, Or.inr (Or.inr ⟨cat', bs, hcat, hbs⟩)⟩
        case some =>
          by_cases hbs0 : pyStartsWith cat "balance_sheet." = true
          case neg =>
            simp only [_place_value, hcat0, if_neg hbs0] at h
            obtain ⟨d, hd, hslot⟩ := h
            rw [getKey?_setKey_self] at hd
            have hd' : d = { (getKey? res e.1.1).getD {} with
                metrics := setKey ((getKey? res e.1.1).getD {}).metrics m.name v } :=
              (Option.some.injEq _ _ ▸ hd).symm
            subst hd'
            cases hyd : getKey? res e.1.1 with
            | none =>
              rcases hslot with hm | hs | ⟨cat', bs, hcat, _⟩
              · rw [hyd] at hm
                rcases isSome_getKey?_setKey_elim _ _ _ _ hm with hn | hm'
                · exact Or.inr ⟨rfl, hn.symm⟩
                · simp [getKey?] at hm'
              · simp [hyd, getKey?] at hs
              · simp [hyd, getKey?] at hcat
            | some d0 =>
              rcases hslot with hm | hs | ⟨cat', bs, hcat, hbs⟩
              · rw [hyd] at hm
                rcases isSome_getKey?_setKey_elim _ _ _ _ hm with hn | hm'
                · exact Or.inr ⟨rfl, hn.symm⟩
                · exact Or.inl ⟨d0, hyd, Or.inl hm'⟩
              · rw [hyd] at hs
                exact Or.inl ⟨d0, hyd, Or.inr (Or.inl hs)⟩
              · rw [hyd] at hcat
                exact Or.inl ⟨d0, hyd, Or.inr (Or.inr ⟨cat', bs, hcat, hbs⟩)⟩
          case pos =>
            simp only [_place_value, hcat0, if_pos hbs0] at h
            obtain ⟨d, hd, hslot⟩ := h
            rw [getKey?_setKey_self] at hd
            have hd' : d = { (getKey? res e.1.1).getD {} with
                balance_sheet := setKey ((getKey? res e.1.1).getD {}).balance_sheet
                  (bsCategorySuffix cat)
                  (setKey ((getKey? ((getKey? res e.1.1).getD {}).balance_sheet
                      (bsCategorySuffix cat)).getD []) m.name v) } :=
              (Option.some.injEq _ _ ▸ hd).symm
            subst hd'
            cases hyd : getKey? res e.1.1 with
            | none =>
              rcases hslot with hm | hs | ⟨cat', bs, hcat, hbsn⟩
              · simp [hyd, getKey?] at hm
              · simp [hyd, getKey?] at hs
              · rw [hyd] at hcat
                rw [getKey?_setKey] at hcat
                by_cases hcc : bsCategorySuffix cat = cat'
                · rw [if_pos hcc] at hcat
                  have hbseq : bs = setKey ((getKey? (YearData.balance_sheet {})
                      (bsCategorySuffix cat)).getD []) m.name v :=
                    (Option.some.injEq _ _ ▸ hcat).symm
                  subst hbseq
                  rcases isSome_getKey?_setKey_elim _ _ _ _ hbsn with hn | hbs'
                  · exact Or.inr ⟨rfl, hn.symm⟩
                  · simp [getKey?] at hbs'
                · rw [if_neg hcc] at hcat
                  simp [getKey?] at hcat
            | some d0 =>
              rcases hslot with hm | hs | ⟨cat', bs, hcat, hbsn⟩
              · rw [hyd] at hm
                exact Or.inl ⟨d0, hyd, Or.inl hm⟩
              · rw [hyd] at hs
                exact Or.inl ⟨d0, hyd, Or.inr (Or.inl hs)⟩
              · rw [hyd] at hcat
                rw [getKey?_setKey] at hcat
                by_cases hcc : bsCategorySuffix cat = cat'
                · rw [if_pos hcc] at hcat
                  have hbseq : bs = setKey ((getKey? d0.balance_sheet
                      (bsCategorySuffix cat)).getD []) m.name v :=
                    (Option.some.injEq _ _ ▸ hcat).symm
                  subst hbseq
                  rcases isSome_getKey?_setKey_elim _ _ _ _ hbsn with hn | hbs'
                  · exact Or.inr ⟨rfl, hn.symm⟩
                  · cases hb0 : getKey? d0.balance_sheet (bsCategorySuffix cat) with
                    | none => rw [hb0] at hbs'; simp [getKey?] at hbs'
                    | some bs0 =>
                      rw [hb0] at hbs'
                      exact Or.inl ⟨d0, hyd, Or.inr (Or.inr ⟨_, bs0, hb0, hbs'⟩)⟩
                · rw [if_neg hcc] at hcat
                  exact Or.inl ⟨d0, hyd, Or.inr (Or.inr ⟨cat', bs, hcat, hbsn⟩)⟩

theorem fold_placeEntry_name_origin :
    ∀ (cands : List (CandKey × List Fact)) (res : Results) (y n : String),
      placedName (cands.foldl placeEntry res) y n →
      placedName res y n ∨ ∃ e ∈ cands, e.1.1 = y ∧ e.1.2.ruleName = n := by
  intro cands
  induction cands with
  | nil => intro res y n h; exact Or.inl h
  | cons e rest ih =>
    intro res y n h
    rcases ih (placeEntry res e) y n h with h' | ⟨e', he', h1, h2⟩
    · rcases placeEntry_name_origin res e y n h' with h'' | ⟨h1, h2⟩
      · exact Or.inl h''
      · exact Or.inr ⟨e, List.mem_cons_self _ _, h1.symm, h2.symm⟩
    · exact Or.inr ⟨e', List.mem_cons_of_mem _ he', h1, h2⟩

/-- C8: when no fact of the index is a matching candidate for a rule at a
year (and no other rule shares the rule's name), the extraction result has no
entry under that rule's name for that year — not in the flat metrics, the
segments sub-mapping, nor any balance-sheet category; and an empty
accumulator resolves to `None`, so no zero-value placeholder can arise. -/
theorem no_candidates_no_entry (facts : List Fact) (cfg : CompanyConfig)
    (y : String) (rr : RuleRef)
    (hno : ∀ f ∈ facts, ¬ isCandidateFactFor cfg f y rr)
    (hname : ∀ rr' ∈ allRuleRefs cfg, rr'.ruleName = rr.ruleName → rr' = rr) :
    ¬ placedName (extract_all facts cfg) y rr.ruleName
    ∧ Accumulator.result {} rr.strategy = none := by
  constructor
  · intro hplaced
    rw [extract_all] at hplaced
    rcases fold_placeEntry_name_origin _ [] y rr.ruleName hplaced with h | ⟨e, he, hy, hn⟩
    · obtain ⟨d, hd, _⟩ := h
      simp [getKey?] at hd
    · have hkey : (getKey? (facts.foldl (processFact cfg) []) e.1).isSome = true :=
        getKey?_isSome_of_mem _ e he
      rcases candidates_key_origin cfg facts e.1.1 e.1.2 [] hkey with h' | ⟨f, hf, hcand⟩
      · simp [getKey?] at h'
      · have hrr' : e.1.2 = rr :=
          hname e.1.2 (rulesFor_subset_allRuleRefs cfg f.concept e.1.2 hcand.2.2.1) hn
        exact hno f hf (hy ▸ hrr' ▸ hcand)
  · rfl

/-- Witness for C8: an index holding only an unrelated concept yields no
entry named "revenues" anywhere for 2024. -/
theorem no_candidates_no_entry_witness :
    ¬ placedName
      (extract_all [⟨"other:X", 7, "USD", none, ("2024-01-01", "2024-12-31"), [], "c"⟩]
        { metrics := [{ name := "revenues", aliases := ["us-gaap:Revenues"] }] })
      "2024" "revenues"
    ∧ Accumulator.result {} MetricStrategy.PICK_FIRST = none := by
  have h := no_candidates_no_entry
    [⟨"other:X", 7, "USD", none, ("2024-01-01", "2024-12-31"), [], "c"⟩]
    { metrics := [{ name := "revenues", aliases := ["us-gaap:Revenues"] }] }
    "2024" (RuleRef.metricR 0 { name := "revenues", aliases := ["us-gaap:Revenues"] })
    (by decide) (by decide)
  exact ⟨h.1, h.2⟩

/-! ## C5: pick_first alias priority -/

/-- The candidate state after one (fact, rule) step is the old state, an
append at the step's key, or a replacement at the step's key. -/
theorem processRule_shape (cfg : CompanyConfig) (f : Fact) (yr : String)
    (st : CandState) (rr' : RuleRef) :
    processRule cfg f yr st rr' = st
    ∨ processRule cfg f yr st rr' = appendCand st (yr, rr') f
    ∨ processRule cfg f yr st rr' = setKey st (yr, rr') [f] := by
  by_cases hy : year_matches_range (yearToInt yr) rr'.years = true
  case neg => left; simp [processRule, hy]
  by_cases hp : rulePasses cfg f rr' = true
  case neg => left; simp [processRule, hy, hp]
  unfold processRule
  rw [if_neg (fun hc => hc hy), if_neg (fun hc => hc hp)]
  cases rr' with
  | segmentR i s =>
    by_cases hs : s.strategy = MetricStrategy.PICK_FIRST
    · cases hgk : getKey? st (yr, RuleRef.segmentR i s) with
      | none => right; left; simp [hs, hgk]
      | some cs => left; simp [hs, hgk]
    · right; left; simp [hs]
  | metricR i m =>
    by_cases hs : m.strategy = MetricStrategy.PICK_FIRST
    · cases hgk : getKey? st (yr, RuleRef.metricR i m) with
      | none => right; left; simp [hs, hgk]
      | some cs =>
        cases cs with
        | nil => left; simp [hs, hgk]
        | cons e rest' =>
          by_cases hpri : priLt (aliasPriority m.aliases f.concept)
              (aliasPriority m.aliases e.concept) = true
          · right; right; simp [hs, hgk, hpri]
          · left; simp [hs, hgk, hpri]
    · right; left; simp [hs]

theorem processRule_frame (cfg : CompanyConfig) (f : Fact) (yr : String)
    (st : CandState) (rr' : RuleRef) (k : CandKey) (hk : ((yr, rr') : CandKey) ≠ k) :
    getKey? (processRule cfg f yr st rr') k = getKey? st k := by
  rcases processRule_shape cfg f yr st rr' with h | h | h
  · rw [h]
  · rw [h, getKey?_appendCand]
    simp [hk]
  · rw [h, getKey?_setKey_ne _ _ _ _ hk]

/-- The metric PICK_FIRST step at its own key, when the year range and all
predicates accept the fact. -/
theorem processRule_metric_pf (cfg : CompanyConfig) (f : Fact) (yr : String)
    (st : CandState) (i : Nat) (m : MetricRule)
    (hs : m.strategy = MetricStrategy.PICK_FIRST)
    (hy : year_matches_range (yearToInt yr) m.years = true)
    (hp : rulePasses cfg f (RuleRef.metricR i m) = true) :
    processRule cfg f yr st (RuleRef.metricR i m) =
      match getKey? st (yr, RuleRef.metricR i m) with
      | none => appendCand st (yr, RuleRef.metricR i m) f
      | some [] => st
      | some (e :: _) =>
        if priLt (aliasPriority m.aliases f.concept) (aliasPriority m.aliases e.concept)
        then setKey st (yr, RuleRef.metricR i m) [f] else st := by
  unfold processRule
  rw [if_neg (fun hc => hc hy), if_neg (fun hc => hc hp)]
  dsimp only
  rw [if_pos hs]

theorem keys_appendCand :
    ∀ (st : CandState) (key : CandKey) (f : Fact),
      (appendCand st key f).map Prod.fst =
        if key ∈ st.map Prod.fst then st.map Prod.fst else st.map Prod.fst ++ [key] := by
  intro st
  induction st with
  | nil => intro key f; simp [appendCand]
  | cons p rest ih =>
    intro key f
    obtain ⟨k', cs⟩ := p
    by_cases hk : k' = key
    · subst hk
      simp [appendCand]
    · simp only [appendCand, if_neg hk, List.map_cons, List.mem_cons]
      rw [ih key f]
      by_cases hmem : key ∈ rest.map Prod.fst
      · simp [hmem, Ne.symm hk]
      · simp [hmem, Ne.symm hk]

theorem nodup_keys_appendCand (st : CandState) (key : CandKey) (f : Fact)
    (h : (st.map Prod.fst).Nodup) : ((appendCand st key f).map Prod.fst).Nodup := by
  rw [keys_appendCand]
  by_cases hmem : key ∈ st.map Prod.fst
  · simpa [hmem] using h
  · rw [if_neg hmem, List.nodup_append]
    exact ⟨h, List.nodup_singleton key, by simpa [List.disjoint_singleton] using hmem⟩

theorem nodup_keys_candidates (cfg : CompanyConfig) :
    ∀ (facts : List Fact) (st : CandState),
      (st.map Prod.fst).Nodup →
      ((facts.foldl (processFact cfg) st).map Prod.fst).Nodup := by
  have hrule : ∀ (f : Fact) (yr : String) (rl : List RuleRef) (st : CandState),
      (st.map Prod.fst).Nodup →
      ((rl.foldl (processRule cfg f yr) st).map Prod.fst).Nodup := by
    intro f yr rl
    induction rl with
    | nil => intro st h; exact h
    | cons rr' rest ih =>
      intro st h
      rw [List.foldl_cons]
      refine ih _ ?_
      rcases processRule_shape cfg f yr st rr' with hsh | hsh | hsh
      · rw [hsh]; exact h
      · rw [hsh]; exact nodup_keys_appendCand st _ f h
      · rw [hsh]; exact nodup_keys_setKey st _ _ h
  intro facts
  induction facts with
  | nil => intro st h; exact h
  | cons f rest ih =>
    intro st h
    rw [List.foldl_cons]
    refine ih _ ?_
    rw [processFact]
    by_cases hy : _year_of_fact f = ""
    · rw [if_pos hy]; exact h
    · rw [if_neg hy]; exact hrule f _ _ st h

theorem getKey?_eq_some_split {κ β : Type} [DecidableEq κ] :
    ∀ (m : List (κ × β)) (k : κ) (v : β),
      getKey? m k = some v →
      ∃ m₁ m₂, m = m₁ ++ (k, v) :: m₂ ∧ k ∉ m₁.map Prod.fst := by
  intro m
  induction m with
  | nil => intro k v h; cases h
  | cons p rest ih =>
    intro k v h
    obtain ⟨k', v'⟩ := p
    by_cases hk : k' = k
    · subst hk
      rw [getKey?, if_pos rfl] at h
      have hv := Option.some.inj h
      subst hv
      exact ⟨[], rest, rfl, by simp⟩
    · rw [getKey?, if_neg hk] at h
      obtain ⟨m₁, m₂, hm, hk1⟩ := ih k v h
      refine ⟨(k', v') :: m₁, m₂, by rw [hm, List.cons_append], ?_⟩
      simp only [List.map_cons, List.mem_cons, not_or]
      exact ⟨fun he => hk he.symm, hk1⟩

theorem concept_mem_aliases_of_rulesFor (cfg : CompanyConfig) (c : String)
    (i : Nat) (m : MetricRule)
    (h : RuleRef.metricR i m ∈ rulesFor cfg c) : c ∈ m.aliases := by
  rw [rulesFor, List.mem_append] at h
  rcases h with h | h
  · obtain ⟨p, _, hmem⟩ := List.mem_flatMap.mp h
    obtain ⟨a, ha, hae⟩ := List.mem_map.mp hmem
    injection hae with h1 h2
    subst h2
    have hfil := List.mem_filter.mp ha
    have : a = c := by simpa using hfil.2
    exact this ▸ hfil.1
  · obtain ⟨p, _, hpe⟩ := List.mem_map.mp h
    cases hpe

theorem aliasPriority_head (A B : String) : aliasPriority [A, B] A = some 0 := by
  simp [aliasPriority, List.indexOf, List.findIdx_cons]

theorem aliasPriority_second (A B : String) (h : A ≠ B) :
    aliasPriority [A, B] B = some 1 := by
  have hba : (A == B) = false := by simpa using h
  simp [aliasPriority, List.indexOf, List.findIdx_cons, hba]

theorem priLt_some_zero (x : Option Nat) : priLt x (some 0) = false := by
  cases x with
  | none => rfl
  | some a => simp [priLt]

/-- Invariant of the PICK_FIRST candidate slot for a metric rule: the slot is
empty or holds exactly one matching candidate fact, whose value is 20
whenever its concept is the top-priority alias `A`. -/
def pfInv (cfg : CompanyConfig) (y : String) (i : Nat) (m : MetricRule) (A : String) :
    Option (List Fact) → Prop
  | none => True
  | some cs => ∃ g, cs = [g] ∧ isCandidateFactFor cfg g y (RuleRef.metricR i m)
      ∧ (g.concept = A → g.value = 20)

/-- The slot holds exactly one fact whose concept is `A` with value 20. -/
def pfDone (A : String) : Option (List Fact) → Prop
  | none => False
  | some cs => ∃ g, cs = [g] ∧ g.concept = A ∧ g.value = 20

theorem processRule_skip (cfg : CompanyConfig) (f : Fact) (yr : String)
    (st : CandState) (rr' : RuleRef)
    (h : ¬ (year_matches_range (yearToInt yr) rr'.years = true
        ∧ rulePasses cfg f rr' = true)) :
    processRule cfg f yr st rr' = st := by
  by_cases hy : year_matches_range (yearToInt yr) rr'.years = true
  · have hp : ¬ rulePasses cfg f rr' = true := fun hp => h ⟨hy, hp⟩
    simp [processRule, hy, hp]
  · simp [processRule, hy]

theorem step_pfInv (cfg : CompanyConfig) (y : String) (i : Nat) (m : MetricRule)
    (A B : String) (hal : m.aliases = [A, B])
    (hs : m.strategy = MetricStrategy.PICK_FIRST)
    (f : Fact) (rr' : RuleRef) (st : CandState)
    (hmem : rr' ∈ rulesFor cfg f.concept)
    (hyr : _year_of_fact f ≠ "")
    (hfa : isCandidateFactFor cfg f y (RuleRef.metricR i m) → f.concept = A → f.value = 20)
    (hinv : pfInv cfg y i m A (getKey? st (y, RuleRef.metricR i m))) :
    pfInv cfg y i m A
      (getKey? (processRule cfg f (_year_of_fact f) st rr') (y, RuleRef.metricR i m)) := by
  by_cases hkey : ((_year_of_fact f, rr') : CandKey) = (y, RuleRef.metricR i m)
  case neg => rw [processRule_frame _ _ _ _ _ _ hkey]; exact hinv
  case pos =>
    rw [Prod.mk.injEq] at hkey
    obtain ⟨hyy, hrr⟩ := hkey
    subst hrr
    by_cases hpass : year_matches_range (yearToInt (_year_of_fact f))
        (RuleRef.metricR i m).years = true
      ∧ rulePasses cfg f (RuleRef.metricR i m) = true
    case neg => rw [processRule_skip _ _ _ _ _ hpass]; exact hinv
    case pos =>
      obtain ⟨hy2, hp2⟩ := hpass
      have hcand : isCandidateFactFor cfg f y (RuleRef.metricR i m) :=
        ⟨hyy, hyy ▸ hyr, hmem, hyy ▸ hy2, hp2⟩
      rw [processRule_metric_pf cfg f _ st i m hs hy2 hp2]
      rw [hyy]
      cases hG : getKey? st (y, RuleRef.metricR i m) with
      | none =>
        simp only []
        rw [getKey?_appendCand]
        simp only [if_pos rfl, hG, Option.getD_none, List.nil_append]
        exact ⟨f, rfl, hcand, hfa hcand⟩
      | some cs =>
        rw [hG] at hinv
        obtain ⟨g, hcs, hgcand, hg20⟩ := hinv
        subst hcs
        simp only []
        by_cases hpri : priLt (aliasPriority m.aliases f.concept)
            (aliasPriority m.aliases g.concept) = true
        · rw [if_pos hpri, getKey?_setKey_self]
          exact ⟨f, rfl, hcand, hfa hcand⟩
        · rw [if_neg hpri, hG]
          exact ⟨g, rfl, hgcand, hg20⟩

theorem step_pfDone (cfg : CompanyConfig) (y : String) (i : Nat) (m : MetricRule)
    (A B : String) (hal : m.aliases = [A, B])
    (hs : m.strategy = MetricStrategy.PICK_FIRST)
    (f : Fact) (rr' : RuleRef) (st : CandState) (yr : String)
    (hdone : pfDone A (getKey? st (y, RuleRef.metricR i m))) :
    pfDone A (getKey? (processRule cfg f yr st rr') (y, RuleRef.metricR i m)) := by
  by_cases hkey : ((yr, rr') : CandKey) = (y, RuleRef.metricR i m)
  case neg => rw [processRule_frame _ _ _ _ _ _ hkey]; exact hdone
  case pos =>
    rw [Prod.mk.injEq] at hkey
    obtain ⟨hyy, hrr⟩ := hkey
    subst hrr
    subst hyy
    by_cases hpass : year_matches_range (yearToInt yr)
        (RuleRef.metricR i m).years = true
      ∧ rulePasses cfg f (RuleRef.metricR i m) = true
    case neg => rw [processRule_skip _ _ _ _ _ hpass]; exact hdone
    case pos =>
      obtain ⟨hy2, hp2⟩ := hpass
      rw [processRule_metric_pf cfg f _ st i m hs hy2 hp2]
      cases hG : getKey? st (yr, RuleRef.metricR i m) with
      | none => rw [hG] at hdone; cases hdone
      | some cs =>
        rw [hG] at hdone
        obtain ⟨g, hcs, hgA, hg20⟩ := hdone
        subst hcs
        simp only []
        have hpri : priLt (aliasPriority m.aliases f.concept)
            (aliasPriority m.aliases g.concept) = false := by
          rw [hgA, hal, aliasPriority_head, priLt_some_zero]
        rw [hpri]
        simp only [Bool.false_eq_true, if_false, hG]
        exact ⟨g, rfl, hgA, hg20⟩

theorem step_pfEstablish (cfg : CompanyConfig) (y : String) (i : Nat) (m : MetricRule)
    (A B : String) (hal : m.aliases = [A, B]) (hAB : A ≠ B)
    (hs : m.strategy = MetricStrategy.PICK_FIRST)
    (f : Fact) (st : CandState)
    (hcand : isCandidateFactFor cfg f y (RuleRef.metricR i m))
    (hfA : f.concept = A) (hf20 : f.value = 20)
    (hinv : pfInv cfg y i m A (getKey? st (y, RuleRef.metricR i m))) :
    pfDone A
      (getKey? (processRule cfg f y st (RuleRef.metricR i m)) (y, RuleRef.metricR i m)) := by
  obtain ⟨hyy, hyne, hmem, hy2, hp2⟩ := hcand
  have hy2' : year_matches_range (yearToInt y) (RuleRef.metricR i m).years = true := hy2
  rw [processRule_metric_pf cfg f y st i m hs hy2' hp2]
  cases hG : getKey? st (y, RuleRef.metricR i m) with
  | none =>
    simp only []
    rw [getKey?_appendCand]
    simp only [if_pos rfl, hG, Option.getD_none, List.nil_append]
    exact ⟨f, rfl, hfA, hf20⟩
  | some cs =>
    rw [hG] at hinv
    obtain ⟨g, hcs, hgcand, hg20⟩ := hinv
    subst hcs
    simp only []
    by_cases hgA : g.concept = A
    · have hpri : priLt (aliasPriority m.aliases f.concept)
          (aliasPriority m.aliases g.concept) = false := by
        rw [hgA, hal, aliasPriority_head, priLt_some_zero]
      rw [hpri]
      simp only [Bool.false_eq_true, if_false, hG]
      exact ⟨g, rfl, hgA, hg20 hgA⟩
    · have hgB : g.concept = B := by
        have hin : g.concept ∈ m.aliases :=
          concept_mem_aliases_of_rulesFor cfg g.concept i m hgcand.2.2.1
        rw [hal] at hin
        rcases List.mem_cons.mp hin with h' | h'
        · exact absurd h' hgA
        · simpa using h'
      have hpri : priLt (aliasPriority m.aliases f.concept)
          (aliasPriority m.aliases g.concept) = true := by
        rw [hfA, hgB, hal, aliasPriority_head, aliasPriority_second A B hAB]
        simp [priLt]
      rw [if_pos hpri, getKey?_setKey_self]
      exact ⟨f, rfl, hfA, hf20⟩

theorem foldRules_pfInv (cfg : CompanyConfig) (y : String) (i : Nat) (m : MetricRule)
    (A B : String) (hal : m.aliases = [A, B])
    (hs : m.strategy = MetricStrategy.PICK_FIRST) (f : Fact)
    (hyr : _year_of_fact f ≠ "")
    (hfa : isCandidateFactFor cfg f y (RuleRef.metricR i m) → f.concept = A → f.value = 20) :
    ∀ (rl : List RuleRef) (st : CandState),
      (∀ rr' ∈ rl, rr' ∈ rulesFor cfg f.concept) →
      pfInv cfg y i m A (getKey? st (y, RuleRef.metricR i m)) →
      pfInv cfg y i m A
        (getKey? (rl.foldl (processRule cfg f (_year_of_fact f)) st) (y, RuleRef.metricR i m)) := by
  intro rl
  induction rl with
  | nil => intro st _ hinv; exact hinv
  | cons rr' rest ih =>
    intro st hmem hinv
    rw [List.foldl_cons]
    refine ih _ (fun r hr => hmem r (List.mem_cons_of_mem _ hr)) ?_
    exact step_pfInv cfg y i m A B hal hs f rr' st
      (hmem rr' (List.mem_cons_self _ _)) hyr hfa hinv

theorem foldRules_pfDone (cfg : CompanyConfig) (y : String) (i : Nat) (m : MetricRule)
    (A B : String) (hal : m.aliases = [A, B])
    (hs : m.strategy = MetricStrategy.PICK_FIRST) (f : Fact) (yr : String) :
    ∀ (rl : List RuleRef) (st : CandState),
      pfDone A (getKey? st (y, RuleRef.metricR i m)) →
      pfDone A
        (getKey? (rl.foldl (processRule cfg f yr) st) (y, RuleRef.metricR i m)) := by
  intro rl
  induction rl with
  | nil => intro st hdone; exact hdone
  | cons rr' rest ih =>
    intro st hdone
    rw [List.foldl_cons]
    exact ih _ (step_pfDone cfg y i m A B hal hs f rr' st yr hdone)

theorem factsFold_pfInv (cfg : CompanyConfig) (y : String) (i : Nat) (m : MetricRule)
    (A B : String) (hal : m.aliases = [A, B])
    (hs : m.strategy = MetricStrategy.PICK_FIRST) :
    ∀ (l : List Fact) (st : CandState),
      (∀ f ∈ l, isCandidateFactFor cfg f y (RuleRef.metricR i m) →
        f.concept = A → f.value = 20) →
      pfInv cfg y i m A (getKey? st (y, RuleRef.metricR i m)) →
      pfInv cfg y i m A
        (getKey? (l.foldl (processFact cfg) st) (y, RuleRef.metricR i m)) := by
  intro l
  induction l with
  | nil => intro st _ hinv; exact hinv
  | cons f rest ih =>
    intro st hfa hinv
    rw [List.foldl_cons]
    refine ih _ (fun g hg => hfa g (List.mem_cons_of_mem _ hg)) ?_
    rw [processFact]
    by_cases hy : _year_of_fact f = ""
    · rw [if_pos hy]; exact hinv
    · rw [if_neg hy]
      exact foldRules_pfInv cfg y i m A B hal hs f hy
        (hfa f (List.mem_cons_self _ _)) _ st (fun _ h => h) hinv

theorem factsFold_pfDone (cfg : CompanyConfig) (y : String) (i : Nat) (m : MetricRule)
    (A B : String) (hal : m.aliases = [A, B])
    (hs : m.strategy = MetricStrategy.PICK_FIRST) :
    ∀ (l : List Fact) (st : CandState),
      pfDone A (getKey? st (y, RuleRef.metricR i m)) →
      pfDone A (getKey? (l.foldl (processFact cfg) st) (y, RuleRef.metricR i m)) := by
  intro l
  induction l with
  | nil => intro st hdone; exact hdone
  | cons f rest ih =>
    intro st hdone
    rw [List.foldl_cons]
    refine ih _ ?_
    rw [processFact]
    by_cases hy : _year_of_fact f = ""
    · rw [if_pos hy]; exact hdone
    · rw [if_neg hy]
      exact foldRules_pfDone cfg y i m A B hal hs f _ _ st hdone

/-- After processing all facts, the PICK_FIRST slot holds a single top-alias
fact with value 20, provided such a matching fact exists and all matching
top-alias facts carry 20. -/
theorem candidates_pfDone (cfg : CompanyConfig) (facts : List Fact)
    (y : String) (i : Nat) (m : MetricRule) (A B : String)
    (hal : m.aliases = [A, B]) (hAB : A ≠ B)
    (hs : m.strategy = MetricStrategy.PICK_FIRST)
    (hA : ∃ f ∈ facts, isCandidateFactFor cfg f y (RuleRef.metricR i m)
        ∧ f.concept = A ∧ f.value = 20)
    (hvalA : ∀ f ∈ facts, isCandidateFactFor cfg f y (RuleRef.metricR i m) →
        f.concept = A → f.value = 20) :
    pfDone A
      (getKey? (facts.foldl (processFact cfg) []) (y, RuleRef.metricR i m)) := by
  obtain ⟨fA, hmemA, hcand, hfA, h20⟩ := hA
  obtain ⟨l₁, l₂, rfl⟩ := List.append_of_mem hmemA
  rw [List.foldl_append, List.foldl_cons]
  refine factsFold_pfDone cfg y i m A B hal hs l₂ _ ?_
  have hinv1 : pfInv cfg y i m A
      (getKey? (l₁.foldl (processFact cfg) []) (y, RuleRef.metricR i m)) := by
    refine factsFold_pfInv cfg y i m A B hal hs l₁ []
      (fun g hg => hvalA g (List.mem_append_left _ hg)) ?_
    show pfInv cfg y i m A (getKey? [] (y, RuleRef.metricR i m))
    exact trivial
  rw [processFact, if_neg (hcand.1 ▸ hcand.2.1)]
  have hylit : _year_of_fact fA = y := hcand.1
  rw [hylit]
  have hmemT : RuleRef.metricR i m ∈ rulesFor cfg fA.concept := hcand.2.2.1
  obtain ⟨r₁, r₂, hrl⟩ := List.append_of_mem hmemT
  rw [hrl, List.foldl_append, List.foldl_cons]
  refine foldRules_pfDone cfg y i m A B hal hs fA y r₂ _ ?_
  refine step_pfEstablish cfg y i m A B hal hAB hs fA _ hcand hfA h20 ?_
  have hinv2 := foldRules_pfInv cfg y i m A B hal hs fA (hcand.1 ▸ hcand.2.1)
    (hvalA fA (List.mem_append_right _ (List.mem_cons_self _ _))) r₁ _
    (fun r hr => hrl ▸ List.mem_append_left _ hr) hinv1
  rwa [hylit] at hinv2

theorem placeEntry_metric_flat (res : Results) (y : String) (i : Nat) (m : MetricRule)
    (cs : List Fact) (v : ℚ)
    (hres : resolveRule (RuleRef.metricR i m) cs = some v)
    (hcat : m.category = none) :
    ∃ d, getKey? (placeEntry res ((y, RuleRef.metricR i m), cs)) y = some d
      ∧ getKey? d.metrics m.name = some v := by
  rw [placeEntry]
  simp only [hres, _place_value, hcat]
  exact ⟨_, getKey?_setKey_self _ _ _, getKey?_setKey_self _ _ _⟩

theorem placeEntry_preserves_metric (res : Results) (e : CandKey × List Fact)
    (y n : String) (v : ℚ)
    (hne : e.1.1 ≠ y ∨ e.1.2.ruleName ≠ n)
    (hq : ∃ d, getKey? res y = some d ∧ getKey? d.metrics n = some v) :
    ∃ d, getKey? (placeEntry res e) y = some d ∧ getKey? d.metrics n = some v := by
  obtain ⟨d, hd, hdn⟩ := hq
  rw [placeEntry]
  cases hres : resolveRule e.1.2 e.2 with
  | none => exact ⟨d, hd, hdn⟩
  | some v' =>
    by_cases hy : e.1.1 = y
    case neg =>
      cases hrr : e.1.2 with
      | segmentR j s =>
        simp only [placeSegment]
        rw [getKey?_setKey_ne _ _ _ _ hy]
        exact ⟨d, hd, hdn⟩
      | metricR j m' =>
        simp only [_place_value]
        rw [getKey?_setKey_ne _ _ _ _ hy]
        exact ⟨d, hd, hdn⟩
    case pos =>
      have hn : e.1.2.ruleName ≠ n := by
        rcases hne with h' | h'
        · exact absurd hy h'
        · exact h'
      cases hrr : e.1.2 with
      | segmentR j s =>
        simp only [placeSegment, hy, hd, Option.getD_some]
        rw [getKey?_setKey_self]
        exact ⟨_, rfl, hdn⟩
      | metricR j m' =>
        have hn' : m'.name ≠ n := by rw [hrr] at hn; exact hn
        simp only [_place_value, hy, hd, Option.getD_some]
        rcases hcat' : m'.category with _ | cat
        all_goals dsimp only
        · rw [getKey?_setKey_self]
          exact ⟨_, rfl, by rw [getKey?_setKey_ne _ _ _ _ hn']; exact hdn⟩
        · by_cases hbs : pyStartsWith cat "balance_sheet." = true
          · rw [if_pos hbs, getKey?_setKey_self]
            exact ⟨_, rfl, hdn⟩
          · rw [if_neg hbs, getKey?_setKey_self]
            exact ⟨_, rfl, by rw [getKey?_setKey_ne _ _ _ _ hn']; exact hdn⟩

theorem fold_placeEntry_preserves_metric :
    ∀ (c₂ : List (CandKey × List Fact)) (res : Results) (y n : String) (v : ℚ),
      (∀ e ∈ c₂, e.1.1 ≠ y ∨ e.1.2.ruleName ≠ n) →
      (∃ d, getKey? res y = some d ∧ getKey? d.metrics n = some v) →
      ∃ d, getKey? (c₂.foldl placeEntry res) y = some d
        ∧ getKey? d.metrics n = some v := by
  intro c₂
  induction c₂ with
  | nil => intro res y n v _ hq; exact hq
  | cons e rest ih =>
    intro res y n v hne hq
    rw [List.foldl_cons]
    exact ih _ y n v (fun e' he' => hne e' (List.mem_cons_of_mem _ he'))
      (placeEntry_preserves_metric res e y n v (hne e (List.mem_cons_self _ _)) hq)

/-- C5: for a pick_first metric rule with alias priority `[A, B]` (no shared
rule name, flat category), whenever the index contains matching candidate
facts for both concepts — concept `A` facts carrying value 20 and a concept
`B` fact carrying value 10 — the extracted flat metric for that year is 20,
the value of the highest-priority alias, regardless of the order in which
the facts are iterated. -/
theorem pick_first_alias_priority (cfg : CompanyConfig) (facts : List Fact)
    (i : Nat) (m : MetricRule) (A B y : String)
    (hs : m.strategy = MetricStrategy.PICK_FIRST)
    (hal : m.aliases = [A, B]) (hAB : A ≠ B) (hcat : m.category = none)
    (hA : ∃ f ∈ facts, isCandidateFactFor cfg f y (RuleRef.metricR i m)
        ∧ f.concept = A ∧ f.value = 20)
    (hB : ∃ f ∈ facts, isCandidateFactFor cfg f y (RuleRef.metricR i m)
        ∧ f.concept = B ∧ f.value = 10)
    (hvalA : ∀ f ∈ facts, isCandidateFactFor cfg f y (RuleRef.metricR i m) →
        f.concept = A → f.value = 20)
    (hname : ∀ rr' ∈ allRuleRefs cfg, rr'.ruleName = m.name →
        rr' = RuleRef.metricR i m) :
    ∃ d, getKey? (extract_all facts cfg) y = some d
      ∧ getKey? d.metrics m.name = some 20 := by
  have hdone := candidates_pfDone cfg facts y i m A B hal hAB hs hA hvalA
  cases hG : getKey? (facts.foldl (processFact cfg) []) (y, RuleRef.metricR i m) with
  | none => rw [hG] at hdone; cases hdone
  | some cs =>
    rw [hG] at hdone
    obtain ⟨g, hcs, hgA, hg20⟩ := hdone
    subst hcs
    have hresolve : resolveRule (RuleRef.metricR i m) [g] = some 20 := by
      rw [resolveRule, if_pos (show (RuleRef.metricR i m).strategy
        = MetricStrategy.PICK_FIRST from hs)]
      show (pickFirstFact m.aliases [g]).map Fact.value = some 20
      rw [hal]
      simp [pickFirstFact, List.find?, hgA, hg20]
    obtain ⟨c₁, c₂, hceq, _⟩ :=
      getKey?_eq_some_split (facts.foldl (processFact cfg) []) _ [g] hG
    have hnodup : ((facts.foldl (processFact cfg) []).map Prod.fst).Nodup :=
      nodup_keys_candidates cfg facts [] (by simp)
    have hkno : ((y, RuleRef.metricR i m) : CandKey) ∉ c₂.map Prod.fst := by
      rw [hceq] at hnodup
      simp only [List.map_append, List.map_cons] at hnodup
      have := (List.nodup_append.mp hnodup).2.1
      exact (List.nodup_cons.mp this).1
    have hc₂ : ∀ e ∈ c₂, e.1.1 ≠ y ∨ e.1.2.ruleName ≠ m.name := by
      intro e he
      by_contra hcon
      push_neg at hcon
      obtain ⟨hey, hen⟩ := hcon
      have he' : e ∈ facts.foldl (processFact cfg) [] := by
        rw [hceq]
        exact List.mem_append_right _ (List.mem_cons_of_mem _ he)
      have hkeysome := getKey?_isSome_of_mem _ e he'
      rcases candidates_key_origin cfg facts e.1.1 e.1.2 [] hkeysome with h' | ⟨f, _, hcand⟩
      · simp [getKey?] at h'
      · have : e.1.2 = RuleRef.metricR i m :=
          hname e.1.2 (rulesFor_subset_allRuleRefs cfg f.concept e.1.2 hcand.2.2.1) hen
        apply hkno
        have he1 : e.1 = ((y, RuleRef.metricR i m) : CandKey) := by
          rw [← hey, ← this]
        exact he1 ▸ List.mem_map.mpr ⟨e, he, rfl⟩
    rw [extract_all]
    rw [hceq, List.foldl_append, List.foldl_cons]
    exact fold_placeEntry_preserves_metric c₂ _ y m.name 20 hc₂
      (placeEntry_metric_flat _ y i m [g] 20 hresolve hcat)

/-- Witness for C5: the concept-B fact (value 10) is encountered BEFORE the
concept-A fact (value 20), and the extracted value is still 20. -/
theorem pick_first_alias_priority_witness :
    ∃ d, getKey? (extract_all
        [⟨"B", 10, "USD", none, ("2024-01-01", "2024-12-31"), [], "cB"⟩,
         ⟨"A", 20, "USD", none, ("2024-01-01", "2024-12-31"), [], "cA"⟩]
        { metrics := [{ name := "m", aliases := ["A", "B"] }] }) "2024" = some d
      ∧ getKey? d.metrics "m" = some 20 := by
  exact pick_first_alias_priority
    { metrics := [{ name := "m", aliases := ["A", "B"] }] }
    [⟨"B", 10, "USD", none, ("2024-01-01", "2024-12-31"), [], "cB"⟩,
     ⟨"A", 20, "USD", none, ("2024-01-01", "2024-12-31"), [], "cA"⟩]
    0 { name := "m", aliases := ["A", "B"] } "A" "B" "2024"
    rfl rfl (by decide) rfl (by decide) (by decide) (by decide) (by decide)

end SecQueries
